import Mathlib

/-!
# HashFS (`hfs/fs.go`): path keys, the metadata record and `Mkdir`

A shallow embedding of the hash-addressed filesystem sketch in `hfs/fs.go`.

* Go strings are byte sequences.  They are modelled as lists of characters
  (`GoString`); the only bytes the code inspects are `/` and `.`.
* `path.Clean`, `path.Split`, `path.Base` and `path.Dir` are the routines of
  Go's standard package `path` that `fileKey` and `Mkdir` call.  They are
  transcribed loop by loop, indices included.
* The buntdb database is a finite list of key/value items.  `HashFS` never
  closes its handle and `Mkdir` never writes, so `db.Update` fails only when
  the closure it runs fails.
* `json.Unmarshal` is a library routine: `fileInfo` and `Mkdir` take the
  decoder as a parameter.  `jsonUnmarshal` is the decoding `encoding/json`
  performs on a `hashFileInfo`; a theorem that names a decoder `u` holds for
  every decoder, that one included.
* A loop that need not terminate (`Mkdir`) takes a fuel argument counting the
  evaluations of its loop condition; `none` means the loop is still running.
  The loop of `path.Clean` always terminates; it is given the length of the
  path as fuel, which it never exhausts (`cleanLoop_fuel`).

The definitions come first, the package `path` before `hfs/fs.go`; then the
lemmas on `path.Clean` (its loop read element by element, the shape of its
fixed points, idempotence), and last the theorems on `Mkdir`, `RemoveAll`,
`hashFileInfo` and `fileKey`.
-/

namespace HashFS

/-- A Go string: a finite sequence of bytes, written here as characters. -/
abbrev GoString := List Char

/-! ## Package `path` -/

/-- The backward scan of the `..` case of `path.Clean`, started after `out.w--`:
`for out.w > dotdot && out.index(out.w) != '/' { out.w-- }`.
The argument is the current `out.w`, the result the final one. -/
def backtrack (buf : GoString) (dotdot : Nat) : Nat → Nat
  | 0 => 0
  | w + 1 =>
    if w + 1 > dotdot ∧ buf[w + 1]? ≠ some '/' then backtrack buf dotdot w else w + 1

/-- The main loop of `path.Clean`, `for r < n { switch ... }`.
`rest` is `path[r:]`, `out` the bytes written so far (`out.w = out.length`),
and the result is the state `(out, dotdot)` at loop exit.  Every iteration
advances `r`, so `rest.length` iterations always suffice. -/
def cleanLoop (rooted : Bool) : Nat → GoString → GoString → Nat → GoString × Nat
  | 0, _, out, dotdot => (out, dotdot)
  | _ + 1, [], out, dotdot => (out, dotdot)
  | fuel + 1, c :: t, out, dotdot =>
    if c = '/' then
      -- empty path element
      cleanLoop rooted fuel t out dotdot
    else if c = '.' ∧ (t = [] ∨ t.head? = some '/') then
      -- . element
      cleanLoop rooted fuel t out dotdot
    else if c = '.' ∧ t.head? = some '.' ∧ (t.tail = [] ∨ t.tail.head? = some '/') then
      -- .. element: remove to last /
      if out.length > dotdot then
        -- can backtrack
        cleanLoop rooted fuel t.tail
          (out.take (backtrack out dotdot (out.length - 1))) dotdot
      else if rooted = false then
        -- cannot backtrack, but not rooted, so append .. element
        let out1 := (if out.length > 0 then out ++ ['/'] else out) ++ ['.', '.']
        cleanLoop rooted fuel t.tail out1 out1.length
      else
        cleanLoop rooted fuel t.tail out dotdot
    else
      -- real path element: add slash if needed, then copy the element
      let out1 :=
        if (rooted = true ∧ out.length ≠ 1) ∨ (rooted = false ∧ out.length ≠ 0) then
          out ++ ['/']
        else out
      cleanLoop rooted fuel ((c :: t).dropWhile (· ≠ '/'))
        (out1 ++ (c :: t).takeWhile (· ≠ '/')) dotdot

/-- The buffer of `path.Clean` at loop exit, before the empty result is
turned into `"."`. -/
def cleanBuf (path : GoString) : GoString :=
  if path.head? = some '/' then
    (cleanLoop true path.length (path.drop 1) ['/'] 1).1
  else
    (cleanLoop false path.length path [] 0).1

/-- Go's `path.Clean`: the shortest path name equivalent to `path` by purely
lexical processing. -/
def Clean (path : GoString) : GoString :=
  if path = [] then ['.']
  else if (cleanBuf path).length = 0 then ['.']
  else cleanBuf path

/-- Go's `bytealg.LastIndexByteString` loop,
`for i := len(s) - 1; i >= 0; i-- { if s[i] == c { return i } }; return -1`,
with the argument one above the index examined next. -/
def lastIndexFrom (s : GoString) (c : Char) : Nat → Int
  | 0 => -1
  | i + 1 => if s[i]? = some c then (i : Int) else lastIndexFrom s c i

/-- Go's `bytealg.LastIndexByteString`: the index of the last `c` in `s`, or
`-1` when there is none. -/
def LastIndexByteString (s : GoString) (c : Char) : Int :=
  lastIndexFrom s c s.length

/-- Go's `path.Split`: `path[:i+1], path[i+1:]` for `i` the last slash. -/
def Split (path : GoString) : GoString × GoString :=
  let i := LastIndexByteString path '/'
  (path.take (i + 1).toNat, path.drop (i + 1).toNat)

/-- The first loop of `path.Base`,
`for len(path) > 0 && path[len(path)-1] == '/' { path = path[0 : len(path)-1] }`;
the argument is the current length of `path`. -/
def trimSlashes (path : GoString) : Nat → GoString
  | 0 => []
  | n + 1 => if path[n]? = some '/' then trimSlashes path n else path.take (n + 1)

/-- Go's `path.Base`: the last element of `path`. -/
def Base (path : GoString) : GoString :=
  if path = [] then ['.']
  else
    let p1 := trimSlashes path path.length
    let i := LastIndexByteString p1 '/'
    let p2 := if i ≥ 0 then p1.drop (i + 1).toNat else p1
    if p2 = [] then ['/'] else p2

/-- Go's `path.Dir`: all but the last element of `path`, cleaned. -/
def Dir (path : GoString) : GoString :=
  Clean (Split path).1

/-! ## `hfs/fs.go` -/

/-- `HashFS.fileKey`: `fmt.Sprintf("file:%s//%s", path.Dir(name), path.Base(name))`. -/
def fileKey (name : GoString) : GoString :=
  "file:".toList ++ Dir name ++ "//".toList ++ Base name

/-- The bit `fs.ModeDir = 1 << 31` of an `fs.FileMode`. -/
def ModeDir : Nat := 2 ^ 31

/-- The anonymous struct of the field `info` of `hashFileInfo`. -/
structure hashFileInfo.Info where
  Name : GoString := []
  Size : Int := 0
  Hash : GoString := []
  Mode : Nat := 0
  ModTime : Int := 0
  deriving DecidableEq, Repr

/-- The metadata record `hashFileInfo`. -/
structure hashFileInfo where
  info : hashFileInfo.Info := {}
  deriving DecidableEq, Repr

/-- The method `hashFileInfo.Name`. -/
def hashFileInfo.Name (hs : hashFileInfo) : GoString := hs.info.Name

/-- The method `hashFileInfo.Size`. -/
def hashFileInfo.Size (hs : hashFileInfo) : Int := hs.info.Size

/-- The method `hashFileInfo.ModTime`. -/
def hashFileInfo.ModTime (hs : hashFileInfo) : Int := hs.info.ModTime

/-- The method `hashFileInfo.IsDir`: `(hs.info.Mode & fs.ModeDir) != 0`. -/
def hashFileInfo.IsDir (hs : hashFileInfo) : Bool := (hs.info.Mode &&& ModeDir) != 0

/-- The error values the claims speak of: `afero.ErrFileExists` (the only one
the code constructs), `afero.ErrFileNotFound` and `syscall.ENOTDIR`. -/
inductive Sentinel where
  | ErrFileExists
  | ErrFileNotFound
  | ENOTDIR
  deriving DecidableEq, Repr

/-- Go's `fs.PathError`. -/
structure PathError where
  Op : GoString
  Path : GoString
  Err : Sentinel
  deriving DecidableEq, Repr

/-- A Go `error` as this code produces it: `nil` (`none`) or a `*fs.PathError`. -/
abbrev error := Option PathError

/-- A buntdb transaction: the items it sees. -/
structure Tx where
  items : List (GoString × GoString)
  deriving DecidableEq, Repr

/-- The buntdb database held in `HashFS.db`: its stored, unexpired items. -/
structure DB where
  items : List (GoString × GoString)
  deriving DecidableEq, Repr

/-- The method `tx.Get(key)` of buntdb: the value stored under `key`, or `none` for the
error `ErrNotFound`. -/
def Tx.Get (tx : Tx) (key : GoString) : Option GoString :=
  (tx.items.find? (fun kv => kv.1 = key)).map (·.2)

/-- The method `db.Update(fn)` of buntdb: run `fn` in a writable transaction, roll back when it
returns an error and commit otherwise. -/
def DB.Update (db : DB) (fn : Tx → error × Tx) : error × DB :=
  match fn ⟨db.items⟩ with
  | (some err, _) => (some err, db)
  | (none, tx) => (none, ⟨tx.items⟩)

/-- A `json.Unmarshal` into a `*hashFileInfo`: from the stored value and the
destination to the destination after decoding. -/
abbrev Decoder := GoString → hashFileInfo → hashFileInfo

/-- What `encoding/json` does with a `hashFileInfo`: it assigns exported
struct fields only, and the single field `info` is unexported, so the
destination is left as it was. -/
def jsonUnmarshal : Decoder := fun _ hs => hs

/-- `HashFS.fileInfo`: the record decoded from the value stored under `name`
(the raw string, not `fileKey name`), or `nil` when `tx.Get` fails. -/
def fileInfo (unmarshal : Decoder) (tx : Tx) (name : GoString) : Option hashFileInfo :=
  match tx.Get name with
  | some val => some (unmarshal val {})
  | none => none

/-- The closure `Mkdir` passes to `db.Update` for the chain element `dir`.  It
has no `return` after the `if`; falling off its end is the `nil` error. -/
def mkdirTx (unmarshal : Decoder) (name dir : GoString) (tx : Tx) : error × Tx :=
  match fileInfo unmarshal tx dir with
  | some hs =>
    if !hs.IsDir then (some ⟨"mkdir".toList, name, Sentinel.ErrFileExists⟩, tx)
    else (none, tx)
  | none => (none, tx)

/-- The loop of `HashFS.Mkdir`, `for dir := name; dir != "."; dir = path.Dir(dir)`,
from the loop variable `dir` on.  The fuel bounds the evaluations of the loop
condition; `none` means the loop has not ended within it.  Leaving the loop
falls off the end of `Mkdir`, which is the `nil` error. -/
def mkdirLoop (unmarshal : Decoder) (name : GoString) : Nat → DB → GoString → Option (error × DB)
  | 0, _, _ => none
  | fuel + 1, db, dir =>
    if dir = ['.'] then some (none, db)
    else
      match db.Update (mkdirTx unmarshal name dir) with
      | (some err, db1) => some (some err, db1)
      | (none, db1) => mkdirLoop unmarshal name fuel db1 (Dir dir)

/-- `HashFS.Mkdir(name, perm)`: the error returned and the database afterwards. -/
def Mkdir (unmarshal : Decoder) (fuel : Nat) (db : DB) (name : GoString) (_perm : Nat) :
    Option (error × DB) :=
  mkdirLoop unmarshal name fuel db name

/-- How a call ends: it returns a value or it panics with a message. -/
inductive Outcome (α : Type) where
  | returned (v : α)
  | panicked (msg : GoString)
  deriving DecidableEq, Repr

/-- `HashFS.RemoveAll(path)`: its body is `panic("not implemented")`. -/
def RemoveAll (db : DB) (_path : GoString) : Outcome error × DB :=
  (Outcome.panicked "not implemented".toList, db)

/-- The record the database holds for `name`, as `fileInfo` reads it in a
fresh transaction. -/
def DB.record (unmarshal : Decoder) (db : DB) (name : GoString) : Option hashFileInfo :=
  fileInfo unmarshal ⟨db.items⟩ name

/-! ## Proof devices -/

/-- The loop of `path.Clean` run on `rest` with the fuel it needs, from the
state `S = (out, dotdot)`. -/
def cl (rooted : Bool) (rest : GoString) (S : GoString × Nat) : GoString × Nat :=
  cleanLoop rooted rest.length rest S.1 S.2

/-- What one iteration of the loop of `path.Clean` does with a whole path
element `e` (non-empty, without a slash). -/
def elemStep (rooted : Bool) (e : GoString) (S : GoString × Nat) : GoString × Nat :=
  if e = ['.'] then S
  else if e = ['.', '.'] then
    if S.1.length > S.2 then (S.1.take (backtrack S.1 S.2 (S.1.length - 1)), S.2)
    else if rooted = false then
      ((if S.1.length > 0 then S.1 ++ ['/'] else S.1) ++ ['.', '.'],
        ((if S.1.length > 0 then S.1 ++ ['/'] else S.1) ++ ['.', '.']).length)
    else S
  else
    ((if (rooted = true ∧ S.1.length ≠ 1) ∨ (rooted = false ∧ S.1.length ≠ 0) then
        S.1 ++ ['/'] else S.1) ++ e, S.2)

/-- The state of `path.Clean` at loop exit. -/
def cleanState (path : GoString) : GoString × Nat :=
  if path.head? = some '/' then cl true (path.drop 1) (['/'], 1)
  else cl false path ([], 0)

/-- A path name is at an element boundary when it is empty or starts with a slash. -/
def Boundary (rest : GoString) : Prop := rest = [] ∨ rest.head? = some '/'

/-- The path name made of a directory `D` and a last element `B`, the way a
cleaned path is made of its `path.Dir` and its `path.Base`. -/
def joinPath (D B : GoString) : GoString :=
  if B = ['/'] then ['/']
  else if D = ['.'] then B
  else if D = ['/'] then '/' :: B
  else D ++ '/' :: B

/-- The error every failing `Mkdir name` returns. -/
def mkdirErr (name : GoString) : PathError :=
  ⟨"mkdir".toList, name, Sentinel.ErrFileExists⟩

/-- The state `path.Clean` starts its loop from. -/
def initState (rooted : Bool) : GoString × Nat :=
  if rooted = true then (['/'], 1) else ([], 0)

/-- The part of a path name the loop of `path.Clean` reads: all of it, or all
but the leading slash of a rooted one. -/
def loopInput (rooted : Bool) (path : GoString) : GoString :=
  if rooted = true then path.drop 1 else path

/-- What holds of every state `(out, dotdot)` of the loop of `path.Clean`:
`dotdot` lies within the buffer, a rooted buffer starts with the slash and has
`dotdot = 1`, and an unrooted buffer does not start with a slash. -/
def Basic (rooted : Bool) (S : GoString × Nat) : Prop :=
  S.2 ≤ S.1.length ∧ (rooted = true → S.1.head? = some '/' ∧ S.2 = 1) ∧
    (rooted = false → S.1.head? ≠ some '/')

/-- A state of the loop of `path.Clean` that the loop reaches again when it is
run on its own buffer. -/
def Stable (rooted : Bool) (S : GoString × Nat) : Prop :=
  Basic rooted S ∧ cl rooted (loopInput rooted S.1) (initState rooted) = S

/-! ## Lemmas on `path.Clean` -/

theorem cleanLoop_fuel (rooted : Bool) :
    ∀ (n fuel1 fuel2 : Nat) (rest out : GoString) (dd : Nat),
      rest.length ≤ n → n ≤ fuel1 → n ≤ fuel2 →
        cleanLoop rooted fuel1 rest out dd = cleanLoop rooted fuel2 rest out dd := by
  intro n
  induction n with
  | zero =>
    intro fuel1 fuel2 rest out dd h _ _
    have : rest = [] := List.length_eq_zero.mp (by omega)
    subst this
    cases fuel1 <;> cases fuel2 <;> simp [cleanLoop]
  | succ n ih =>
    intro fuel1 fuel2 rest out dd h h1 h2
    obtain ⟨f1, rfl⟩ : ∃ f, fuel1 = f + 1 := ⟨fuel1 - 1, by omega⟩
    obtain ⟨f2, rfl⟩ : ∃ f, fuel2 = f + 1 := ⟨fuel2 - 1, by omega⟩
    cases rest with
    | nil => simp [cleanLoop]
    | cons c t =>
      have ht : t.length ≤ n := by simpa using h
      have htt : t.tail.length ≤ n := by
        rw [List.length_tail]; omega
      have hdw : c ≠ '/' → ((c :: t).dropWhile (· ≠ '/')).length ≤ n := by
        intro hc
        rw [List.dropWhile_cons_of_pos (by simpa using hc)]
        exact le_trans (List.Sublist.length_le (List.dropWhile_sublist _)) ht
      rw [cleanLoop, cleanLoop]
      split_ifs <;>
        first
          | exact ih _ _ _ _ _ ht (by omega) (by omega)
          | exact ih _ _ _ _ _ htt (by omega) (by omega)
          | exact ih _ _ _ _ _ (hdw (by assumption)) (by omega) (by omega)

theorem cl_nil (rooted : Bool) (S : GoString × Nat) : cl rooted [] S = S := by
  simp [cl, cleanLoop]

theorem cl_slash (rooted : Bool) (t : GoString) (S : GoString × Nat) :
    cl rooted ('/' :: t) S = cl rooted t S := by
  simp [cl, cleanLoop]


theorem takeWhile_boundary (r : GoString) (hr : Boundary r) :
    r.takeWhile (· ≠ '/') = [] ∧ r.dropWhile (· ≠ '/') = r := by
  rcases hr with rfl | hr
  · simp
  · cases r with
    | nil => simp
    | cons x r =>
      simp only [List.head?_cons, Option.some.injEq] at hr
      subst hr
      simp

theorem takeWhile_elem (e r : GoString) (he : '/' ∉ e) (hr : Boundary r) :
    (e ++ r).takeWhile (· ≠ '/') = e ∧ (e ++ r).dropWhile (· ≠ '/') = r := by
  have hp : ∀ a ∈ e, (fun x : Char => decide (x ≠ '/')) a = true := by
    intro a ha
    simp only [ne_eq, decide_not, Bool.not_eq_true', decide_eq_false_iff_not]
    rintro rfl
    exact he ha
  rw [List.takeWhile_append_of_pos hp, List.dropWhile_append_of_pos hp,
    (takeWhile_boundary r hr).1, (takeWhile_boundary r hr).2]
  simp

theorem boundary_append_iff (e r : GoString) (he : '/' ∉ e) (hr : Boundary r) :
    (e ++ r = [] ∨ (e ++ r).head? = some '/') ↔ e = [] := by
  cases e with
  | nil => simpa using hr
  | cons x e =>
    simp only [List.cons_append, List.head?_cons, Option.some.injEq, reduceCtorEq, false_or,
      iff_false]
    rintro rfl
    exact he (List.mem_cons_self _ _)

theorem cl_elem (rooted : Bool) (e r : GoString) (S : GoString × Nat)
    (hne : e ≠ []) (he : '/' ∉ e) (hr : Boundary r) :
    cl rooted (e ++ r) S = cl rooted r (elemStep rooted e S) := by
  obtain ⟨out, dd⟩ := S
  cases e with
  | nil => exact absurd rfl hne
  | cons c e1 =>
    have hc : c ≠ '/' := by
      rintro rfl; exact he (List.mem_cons_self _ _)
    have he1 : '/' ∉ e1 := fun h => he (List.mem_cons_of_mem _ h)
    have hb := boundary_append_iff e1 r he1 hr
    have htd := takeWhile_elem (c :: e1) r he hr
    unfold cl
    simp only [List.cons_append, List.length_cons, List.length_append]
    rw [cleanLoop, if_neg hc]
    by_cases h1 : c = '.' ∧ (e1 ++ r = [] ∨ (e1 ++ r).head? = some '/')
    · rw [if_pos h1]
      have he1nil : e1 = [] := hb.mp h1.2
      subst he1nil
      obtain ⟨rfl, -⟩ := h1
      simp only [List.nil_append, List.length_nil, Nat.zero_add, elemStep, if_true]
    · rw [if_neg h1]
      by_cases h2 : c = '.' ∧ (e1 ++ r).head? = some '.' ∧
          ((e1 ++ r).tail = [] ∨ (e1 ++ r).tail.head? = some '/')
      · rw [if_pos h2]
        obtain ⟨rfl, h2a, h2b⟩ := h2
        cases e1 with
        | nil =>
          exfalso
          apply h1
          exact ⟨rfl, hb.mpr rfl⟩
        | cons x e2 =>
          simp only [List.cons_append, List.head?_cons, Option.some.injEq] at h2a
          subst h2a
          have he2 : '/' ∉ e2 := fun h => he1 (List.mem_cons_of_mem _ h)
          have he2nil : e2 = [] := (boundary_append_iff e2 r he2 hr).mp (by simpa using h2b)
          subst he2nil
          have hE : elemStep rooted ['.', '.'] (out, dd) =
              if out.length > dd then (out.take (backtrack out dd (out.length - 1)), dd)
              else if rooted = false then
                ((if out.length > 0 then out ++ ['/'] else out) ++ ['.', '.'],
                  ((if out.length > 0 then out ++ ['/'] else out) ++ ['.', '.']).length)
              else (out, dd) := by
            unfold elemStep
            rw [if_neg (by decide), if_pos rfl]
          rw [hE]
          simp only [List.nil_append, List.cons_append, List.tail_cons, List.length_cons,
            List.length_nil]
          split_ifs <;>
            exact cleanLoop_fuel rooted r.length (0 + 1 + r.length) r.length r _ _
              le_rfl (by omega) le_rfl
      · rw [if_neg h2]
        have hreal1 : (c :: e1) ≠ ['.'] := by
          intro h
          injection h with ha hb2
          subst ha; subst hb2
          exact h1 ⟨rfl, hb.mpr rfl⟩
        have hreal2 : (c :: e1) ≠ ['.', '.'] := by
          intro h
          injection h with ha hb2
          subst ha; subst hb2
          apply h2
          refine ⟨rfl, by simp, ?_⟩
          simpa using hr
        have htd1 := htd.1
        have htd2 := htd.2
        simp only [List.cons_append] at htd1 htd2
        simp only [htd1, htd2, elemStep, if_neg hreal1, if_neg hreal2]
        exact cleanLoop_fuel rooted r.length (e1.length + r.length) r.length r _ _
          le_rfl (by omega) le_rfl


theorem boundary_dropWhile (l : GoString) : Boundary (l.dropWhile (· ≠ '/')) := by
  induction l with
  | nil => left; rfl
  | cons x l ih =>
    by_cases hx : x = '/'
    · subst hx
      right
      simp
    · rw [List.dropWhile_cons_of_pos (by simpa using hx)]
      exact ih

theorem not_mem_takeWhile (l : GoString) : '/' ∉ l.takeWhile (· ≠ '/') := by
  intro h
  have := List.mem_takeWhile_imp h
  simp at this

/-- A path name that does not start with a slash starts with a whole element. -/
theorem elem_split (c : Char) (t : GoString) (hc : c ≠ '/') :
    ∃ e r : GoString, c :: t = e ++ r ∧ e ≠ [] ∧ '/' ∉ e ∧ Boundary r ∧
      r.length ≤ t.length := by
  refine ⟨(c :: t).takeWhile (· ≠ '/'), (c :: t).dropWhile (· ≠ '/'),
    (List.takeWhile_append_dropWhile _ _).symm, ?_, not_mem_takeWhile _, boundary_dropWhile _, ?_⟩
  · rw [List.takeWhile_cons_of_pos (by simpa using hc)]
    simp
  · rw [List.dropWhile_cons_of_pos (by simpa using hc)]
    exact List.Sublist.length_le (List.dropWhile_sublist _)

theorem boundary_append (r y : GoString) (hr : Boundary r) (hy : Boundary y) :
    Boundary (r ++ y) := by
  rcases hr with rfl | hr
  · simpa using hy
  · right
    cases r with
    | nil => simp at hr
    | cons x r => simpa using hr

/-- The loop of `path.Clean` can be run in two parts when the second part
starts at an element boundary. -/
theorem cl_append (rooted : Bool) :
    ∀ (n : Nat) (x y : GoString) (S : GoString × Nat), x.length ≤ n → Boundary y →
      cl rooted (x ++ y) S = cl rooted y (cl rooted x S) := by
  intro n
  induction n with
  | zero =>
    intro x y S hx _
    have : x = [] := List.length_eq_zero.mp (by omega)
    subst this
    rw [cl_nil, List.nil_append]
  | succ n ih =>
    intro x y S hx hy
    cases x with
    | nil => rw [cl_nil, List.nil_append]
    | cons c t =>
      have ht : t.length ≤ n := by simpa using hx
      by_cases hc : c = '/'
      · subst hc
        rw [List.cons_append, cl_slash, cl_slash]
        exact ih t y S ht hy
      · obtain ⟨e, r, hsplit, hne, he, hr, hlen⟩ := elem_split c t hc
        rw [hsplit, List.append_assoc, cl_elem rooted e (r ++ y) S hne he (boundary_append r y hr hy),
          cl_elem rooted e r S hne he hr]
        exact ih r y _ (by omega) hy

theorem elemStep_length (rooted : Bool) (e : GoString) (S : GoString × Nat) (hne : e ≠ []) :
    (elemStep rooted e S).1.length ≤ S.1.length + e.length +
      (if (rooted = true ∧ S.1.length ≠ 1) ∨ (rooted = false ∧ S.1.length ≠ 0) then 1 else 0) := by
  obtain ⟨out, dd⟩ := S
  have hpos : 1 ≤ e.length := by
    cases e with
    | nil => exact absurd rfl hne
    | cons x e => simp
  unfold elemStep
  by_cases h1 : e = ['.']
  · rw [if_pos h1]; simp only; omega
  · rw [if_neg h1]
    by_cases h2 : e = ['.', '.']
    · rw [if_pos h2]
      subst h2
      simp only [List.length_cons, List.length_nil]
      by_cases h3 : out.length > dd
      · rw [if_pos h3]
        simp only [List.length_take]
        omega
      · rw [if_neg h3]
        cases rooted with
        | true => simp only [Bool.true_eq_false, if_false]; omega
        | false =>
          simp only [if_true]
          by_cases h4 : out.length > 0
          · rw [if_pos h4]
            have : out.length ≠ 0 := by omega
            simp [this]
          · rw [if_neg h4]
            simp
    · rw [if_neg h2]
      simp only
      split_ifs <;> simp only [List.length_append, List.length_cons, List.length_nil] <;> omega

theorem cl_length (rooted : Bool) :
    ∀ (n : Nat) (rest : GoString) (S : GoString × Nat), rest.length ≤ n →
      (cl rooted rest S).1.length ≤ S.1.length + rest.length + 1 ∧
      ((Boundary rest ∨ ¬ ((rooted = true ∧ S.1.length ≠ 1) ∨ (rooted = false ∧ S.1.length ≠ 0))) →
        (cl rooted rest S).1.length ≤ S.1.length + rest.length) := by
  intro n
  induction n with
  | zero =>
    intro rest S h
    have : rest = [] := List.length_eq_zero.mp (by omega)
    subst this
    rw [cl_nil]
    simp
  | succ n ih =>
    intro rest S h
    cases rest with
    | nil => rw [cl_nil]; simp
    | cons c t =>
      have ht : t.length ≤ n := by simpa using h
      by_cases hc : c = '/'
      · subst hc
        rw [cl_slash]
        have := (ih t S ht).1
        simp only [List.length_cons]
        exact ⟨by omega, fun _ => by omega⟩
      · obtain ⟨e, r, hsplit, hne, he, hr, hlen⟩ := elem_split c t hc
        have hlen2 : (c :: t).length = e.length + r.length := by
          rw [hsplit, List.length_append]
        rw [hlen2, hsplit, cl_elem rooted e r S hne he hr]
        have hb := (ih r (elemStep rooted e S) (by omega)).2 (Or.inl hr)
        have hs := elemStep_length rooted e S hne
        constructor
        · split_ifs at hs <;> omega
        · intro hcond
          have hnb : ¬ Boundary (e ++ r) := by
            rw [← hsplit]
            rintro (h0 | h0)
            · cases h0
            · simp only [List.head?_cons, Option.some.injEq] at h0
              exact hc h0
          rcases hcond with hcond | hcond
          · exact absurd hcond hnb
          · rw [if_neg hcond] at hs
            omega

theorem cl_last (rooted : Bool) (x b : GoString) (S : GoString × Nat) (hb : '/' ∉ b) :
    cl rooted (x ++ '/' :: b) S =
      if b = [] then cl rooted x S else elemStep rooted b (cl rooted x S) := by
  rw [cl_append rooted x.length x ('/' :: b) S le_rfl (Or.inr rfl), cl_slash]
  by_cases h : b = []
  · rw [if_pos h, h, cl_nil]
  · rw [if_neg h]
    have := cl_elem rooted b [] (cl rooted x S) h hb (Or.inl rfl)
    rw [List.append_nil, cl_nil] at this
    exact this

theorem cleanBuf_eq (path : GoString) : cleanBuf path = (cleanState path).1 := by
  unfold cleanBuf cleanState cl
  split_ifs
  · rw [cleanLoop_fuel true (path.drop 1).length path.length (path.drop 1).length _ _ _ le_rfl
      (by simp) le_rfl]
  · rfl

theorem cleanState_length (path : GoString) : (cleanState path).1.length ≤ path.length := by
  unfold cleanState
  split_ifs with h
  · have := (cl_length true _ (path.drop 1) (['/'], 1) le_rfl).2 (Or.inr (by simp))
    cases path with
    | nil => simp at h
    | cons c t =>
      simp only [List.drop_succ_cons, List.drop_zero, List.length_cons, List.length_nil] at this ⊢
      omega
  · have := (cl_length false _ path ([], 0) le_rfl).2 (Or.inr (by simp))
    simpa using this


theorem cleanState_last (d b : GoString) (hb : '/' ∉ b) :
    cleanState (d ++ '/' :: b) =
      if b = [] then cleanState (d ++ ['/'])
      else elemStep (decide ((d ++ '/' :: b).head? = some '/')) b (cleanState (d ++ ['/'])) := by
  cases d with
  | nil =>
    have h0 : cleanState ['/'] = (['/'], 1) := by decide
    have h1 : cleanState ('/' :: b) = cl true b (['/'], 1) := by
      simp [cleanState]
    simp only [List.nil_append, List.head?_cons, decide_True]
    rw [h0, h1]
    by_cases h : b = []
    · rw [if_pos h, h, cl_nil]
    · rw [if_neg h]
      have := cl_elem true b [] (['/'], 1) h hb (Or.inl rfl)
      rw [List.append_nil, cl_nil] at this
      exact this
  | cons c d1 =>
    by_cases hc : c = '/'
    · subst hc
      have h1 : cleanState (('/' :: d1) ++ '/' :: b) = cl true (d1 ++ '/' :: b) (['/'], 1) := by
        simp [cleanState]
      have h2 : cleanState (('/' :: d1) ++ ['/']) = cl true (d1 ++ ['/']) (['/'], 1) := by
        simp [cleanState]
      rw [h1, h2, cl_last true d1 b _ hb, cl_last true d1 [] _ (by simp)]
      simp
    · have h1 : cleanState ((c :: d1) ++ '/' :: b) = cl false ((c :: d1) ++ '/' :: b) ([], 0) := by
        simp [cleanState, hc]
      have h2 : cleanState ((c :: d1) ++ ['/']) = cl false ((c :: d1) ++ ['/']) ([], 0) := by
        simp [cleanState, hc]
      rw [h1, h2, cl_last false (c :: d1) b _ hb, cl_last false (c :: d1) [] _ (by simp)]
      simp [hc]

theorem cleanState_trailing (d : GoString) (hd : d ≠ []) :
    cleanState (d ++ ['/']) = cleanState d := by
  cases d with
  | nil => exact absurd rfl hd
  | cons c d1 =>
    by_cases hc : c = '/'
    · subst hc
      have h2 : cleanState (('/' :: d1) ++ ['/']) = cl true (d1 ++ ['/']) (['/'], 1) := by
        simp [cleanState]
      have h3 : cleanState ('/' :: d1) = cl true d1 (['/'], 1) := by
        simp [cleanState]
      rw [h2, h3, cl_last true d1 [] _ (by simp)]
      simp
    · have h2 : cleanState ((c :: d1) ++ ['/']) = cl false ((c :: d1) ++ ['/']) ([], 0) := by
        simp [cleanState, hc]
      have h3 : cleanState (c :: d1) = cl false (c :: d1) ([], 0) := by
        simp [cleanState, hc]
      rw [h2, h3, cl_last false (c :: d1) [] _ (by simp)]
      simp

/-- A fixed point of `path.Clean` that contains a slash is the buffer the loop
leaves. -/
theorem cleanState_of_fixed (p : GoString) (hfix : Clean p = p) (hs : '/' ∈ p) :
    (cleanState p).1 = p := by
  rw [← cleanBuf_eq]
  unfold Clean at hfix
  by_cases h0 : p = []
  · subst h0; simp at hs
  · rw [if_neg h0] at hfix
    by_cases h1 : (cleanBuf p).length = 0
    · rw [if_pos h1] at hfix
      rw [← hfix] at hs
      simp at hs
    · rw [if_neg h1] at hfix
      exact hfix


/-- The shape of a fixed point of `path.Clean` around its last slash: it is
`"/"`, or it is `"/" ++ b`, or the part before the last slash is what
`path.Clean` makes of that part with the slash, and is neither `"."` nor `"/"`. -/
theorem clean_fixed_last_slash (d b : GoString) (hb : '/' ∉ b)
    (hfix : Clean (d ++ '/' :: b) = d ++ '/' :: b) :
    (b = [] ∧ d = []) ∨
      (b ≠ [] ∧ (d = [] ∨
        ((cleanState (d ++ ['/'])).1 = d ∧ d ≠ ['.'] ∧ d ≠ ['/']))) := by
  have hst := cleanState_of_fixed _ hfix (by simp)
  rw [cleanState_last d b hb] at hst
  have hlen := cleanState_length (d ++ ['/'])
  simp only [List.length_append, List.length_cons, List.length_nil] at hlen
  have hdot : (cleanState ['.', '/']).1 = [] := by decide
  by_cases hbn : b = []
  · left
    refine ⟨hbn, ?_⟩
    rw [if_pos hbn] at hst
    subst hbn
    by_contra hd
    rw [cleanState_trailing d hd] at hst
    have h2 := cleanState_length d
    rw [hst] at h2
    simp at h2
  · right
    refine ⟨hbn, ?_⟩
    rw [if_neg hbn] at hst
    generalize hS : cleanState (d ++ ['/']) = S at hst hlen
    obtain ⟨out, dd⟩ := S
    have hfin : ∀ (hout : out = d), d ≠ [] →
        (((d.head? = some '/') → out.length ≠ 1)) →
        (out = d ∧ d ≠ ['.'] ∧ d ≠ ['/']) := by
      intro hout hdne hroot
      refine ⟨hout, ?_, ?_⟩
      · rintro rfl
        have hS2 : cleanState ['.', '/'] = (out, dd) := hS
        rw [hS2] at hdot
        simp only at hdot
        rw [hdot] at hout
        cases hout
      · rintro rfl
        exact hroot rfl (by rw [hout]; rfl)
    simp only at hlen
    unfold elemStep at hst
    by_cases h1 : b = ['.']
    · exfalso
      rw [if_pos h1] at hst
      simp only at hst
      rw [hst, h1] at hlen
      simp at hlen
    · rw [if_neg h1] at hst
      by_cases h2 : b = ['.', '.']
      · rw [if_pos h2] at hst
        subst h2
        simp only at hst
        by_cases h3 : out.length > dd
        · exfalso
          rw [if_pos h3] at hst
          have := congrArg List.length hst
          simp only [List.length_take, List.length_append, List.length_cons,
            List.length_nil] at this
          omega
        · rw [if_neg h3] at hst
          by_cases hr : (d ++ '/' :: ['.', '.']).head? = some '/'
          · exfalso
            simp only [hr, decide_True, Bool.true_eq_false, if_false] at hst
            have := congrArg List.length hst
            simp only [List.length_append, List.length_cons, List.length_nil] at this
            omega
          · simp only [hr, decide_False, if_true] at hst
            by_cases h4 : out.length > 0
            · rw [if_pos h4] at hst
              have hout : out = d := by
                have : out ++ ['/', '.', '.'] = d ++ ['/', '.', '.'] := by simpa using hst
                exact List.append_cancel_right this
              have hdne : d ≠ [] := by
                rintro rfl
                subst hout
                simp at h4
              right
              refine hfin hout hdne ?_
              intro hh
              exfalso
              apply hr
              cases d with
              | nil => exact absurd rfl hdne
              | cons x d => simpa using hh
            · exfalso
              rw [if_neg h4] at hst
              have := congrArg List.length hst
              simp only [List.length_append, List.length_cons, List.length_nil] at this
              omega
      · rw [if_neg h2] at hst
        simp only at hst
        by_cases h5 : (decide ((d ++ '/' :: b).head? = some '/') = true ∧ out.length ≠ 1) ∨
            (decide ((d ++ '/' :: b).head? = some '/') = false ∧ out.length ≠ 0)
        · rw [if_pos h5] at hst
          have hout : out = d := by
            have : (out ++ ['/']) ++ b = (d ++ ['/']) ++ b := by simpa using hst
            have := List.append_cancel_right this
            exact List.append_cancel_right this
          by_cases hdne : d = []
          · left; exact hdne
          · right
            refine hfin hout hdne ?_
            intro hh
            have hroot : (d ++ '/' :: b).head? = some '/' := by
              cases d with
              | nil => exact absurd rfl hdne
              | cons x d => simpa using hh
            rcases h5 with ⟨-, h5⟩ | ⟨h5, -⟩
            · exact h5
            · simp [hroot] at h5
        · rw [if_neg h5] at hst
          left
          have hout : out = d ++ ['/'] := by
            have : out ++ b = (d ++ ['/']) ++ b := by simpa using hst
            exact List.append_cancel_right this
          have hl : out.length = d.length + 1 := by rw [hout]; simp
          by_cases hr : (d ++ '/' :: b).head? = some '/'
          · simp only [hr, decide_True, true_and, Bool.true_eq_false, false_and, or_false,
              not_not] at h5
            exact List.length_eq_zero.mp (by omega)
          · exfalso
            simp only [hr, decide_False, Bool.false_eq_true, false_and, true_and, false_or,
              not_not] at h5
            omega


/-! ## `LastIndexByteString`, `Split` and `Base` -/

theorem lastIndexFrom_not_mem (s : GoString) (c : Char) (h : c ∉ s) :
    ∀ n : Nat, lastIndexFrom s c n = -1 := by
  intro n
  induction n with
  | zero => rfl
  | succ n ih =>
    rw [lastIndexFrom, if_neg, ih]
    intro hget
    exact h (List.getElem?_mem hget)

theorem lastIndexFrom_last (a b : GoString) (c : Char) (hb : c ∉ b) :
    ∀ k : Nat, k ≤ b.length → lastIndexFrom (a ++ c :: b) c (a.length + 1 + k) = a.length := by
  intro k
  induction k with
  | zero =>
    intro _
    rw [Nat.add_zero, lastIndexFrom, if_pos]
    rw [List.getElem?_append_right (le_refl _)]
    simp
  | succ k ih =>
    intro hk
    rw [show a.length + 1 + (k + 1) = (a.length + 1 + k) + 1 by omega, lastIndexFrom, if_neg]
    · exact ih (by omega)
    · intro hget
      apply hb
      rw [List.getElem?_append_right (by omega)] at hget
      have h2 : a.length + 1 + k - a.length = k + 1 := by omega
      rw [h2, List.getElem?_cons_succ] at hget
      exact List.getElem?_mem hget

theorem LastIndexByteString_last (a b : GoString) (c : Char) (hb : c ∉ b) :
    LastIndexByteString (a ++ c :: b) c = a.length := by
  unfold LastIndexByteString
  have := lastIndexFrom_last a b c hb b.length le_rfl
  rw [← this]
  congr 1
  simp
  omega

theorem LastIndexByteString_not_mem (s : GoString) (c : Char) (h : c ∉ s) :
    LastIndexByteString s c = -1 :=
  lastIndexFrom_not_mem s c h s.length

/-- A string that contains `c` splits at its last `c`. -/
theorem exists_last_occurrence (c : Char) :
    ∀ s : GoString, c ∈ s → ∃ a b : GoString, s = a ++ c :: b ∧ c ∉ b := by
  intro s
  induction s with
  | nil => intro h; simp at h
  | cons x s ih =>
    intro h
    by_cases hs : c ∈ s
    · obtain ⟨a, b, hab, hb⟩ := ih hs
      exact ⟨x :: a, b, by rw [hab]; rfl, hb⟩
    · have hx : c = x := by
        rcases List.mem_cons.mp h with h | h
        · exact h
        · exact absurd h hs
      subst hx
      exact ⟨[], s, rfl, hs⟩

theorem Split_last (d b : GoString) (hb : '/' ∉ b) :
    Split (d ++ '/' :: b) = (d ++ ['/'], b) := by
  unfold Split
  rw [LastIndexByteString_last d b '/' hb]
  have h : ((d.length : Int) + 1).toNat = d.length + 1 := by omega
  simp only [h]
  have e : d ++ '/' :: b = (d ++ ['/']) ++ b := by simp
  have hl : (d ++ ['/']).length = d.length + 1 := by simp
  rw [e, ← hl, List.take_left, List.drop_left]

theorem Split_no_slash (p : GoString) (h : '/' ∉ p) : Split p = ([], p) := by
  unfold Split
  rw [LastIndexByteString_not_mem p '/' h]
  simp

theorem trimSlashes_id (a : GoString) (x : Char) (hx : x ≠ '/') :
    trimSlashes (a ++ [x]) (a ++ [x]).length = a ++ [x] := by
  have hl : (a ++ [x]).length = a.length + 1 := by simp
  rw [hl, trimSlashes, if_neg]
  · rw [← hl, List.take_length]
  · rw [List.getElem?_append_right (by omega)]
    simpa using hx

/-- The suffix `path.Base` keeps after its last slash holds no slash. -/
theorem no_slash_after_last (s : GoString) :
    '/' ∉ (if LastIndexByteString s '/' ≥ 0 then
      s.drop (LastIndexByteString s '/' + 1).toNat else s) := by
  by_cases h : '/' ∈ s
  · obtain ⟨a, b, hab, hb⟩ := exists_last_occurrence '/' s h
    rw [hab, LastIndexByteString_last a b '/' hb, if_pos (show ((a.length : Int) ≥ 0) by omega)]
    have h1 : ((a.length : Int) + 1).toNat = a.length + 1 := by omega
    have e : a ++ '/' :: b = (a ++ ['/']) ++ b := by simp
    have hl : (a ++ ['/']).length = a.length + 1 := by simp
    rw [h1, e, ← hl, List.drop_left]
    exact hb
  · rw [LastIndexByteString_not_mem s '/' h, if_neg (show ¬ ((-1 : Int) ≥ 0) by omega)]
    exact h

theorem Base_shape (p : GoString) : Base p ≠ [] ∧ (Base p = ['/'] ∨ '/' ∉ Base p) := by
  unfold Base
  by_cases h0 : p = []
  · rw [if_pos h0]
    exact ⟨by simp, Or.inr (by decide)⟩
  · rw [if_neg h0]
    simp only
    have hns := no_slash_after_last (trimSlashes p p.length)
    split_ifs with h1 h2 h2
    · exact ⟨by simp, Or.inl rfl⟩
    · rw [if_pos h1] at hns
      exact ⟨h2, Or.inr hns⟩
    · exact ⟨by simp, Or.inl rfl⟩
    · rw [if_neg h1] at hns
      exact ⟨h2, Or.inr hns⟩

theorem Base_no_slash (p : GoString) (h0 : p ≠ []) (h : '/' ∉ p) : Base p = p := by
  obtain ⟨a, x, rfl⟩ : ∃ a x, p = a ++ [x] :=
    ⟨p.dropLast, p.getLast h0, (List.dropLast_append_getLast h0).symm⟩
  have hx : x ≠ '/' := by
    rintro rfl
    exact h (by simp)
  unfold Base
  rw [if_neg h0]
  simp only
  rw [trimSlashes_id a x hx, LastIndexByteString_not_mem _ '/' h,
    if_neg (show ¬ ((-1 : Int) ≥ 0) by omega), if_neg h0]

theorem Base_last (d b : GoString) (h0 : b ≠ []) (hb : '/' ∉ b) :
    Base (d ++ '/' :: b) = b := by
  obtain ⟨a, x, rfl⟩ : ∃ a x, b = a ++ [x] :=
    ⟨b.dropLast, b.getLast h0, (List.dropLast_append_getLast h0).symm⟩
  have hx : x ≠ '/' := by
    rintro rfl
    exact hb (by simp)
  have e : d ++ '/' :: (a ++ [x]) = (d ++ '/' :: a) ++ [x] := by simp
  unfold Base
  rw [if_neg (by simp)]
  simp only
  rw [e, trimSlashes_id (d ++ '/' :: a) x hx, ← e, LastIndexByteString_last d (a ++ [x]) '/' hb,
    if_pos (show ((d.length : Int) ≥ 0) by omega)]
  have h1 : ((d.length : Int) + 1).toNat = d.length + 1 := by omega
  have e2 : d ++ '/' :: (a ++ [x]) = (d ++ ['/']) ++ (a ++ [x]) := by simp
  have hl : (d ++ ['/']).length = d.length + 1 := by simp
  rw [h1, e2, ← hl, List.drop_left, if_neg h0]


theorem Clean_eq_of_buf (x d : GoString) (hx : x ≠ []) (hd : d ≠ [])
    (h : (cleanState x).1 = d) : Clean x = d := by
  unfold Clean
  rw [if_neg hx, cleanBuf_eq, h, if_neg]
  intro h0
  exact hd (List.length_eq_zero.mp h0)

/-- A cleaned path is determined by its `path.Dir` and its `path.Base`. -/
theorem joinPath_Dir_Base (p : GoString) (hfix : Clean p = p) :
    joinPath (Dir p) (Base p) = p := by
  by_cases hs : '/' ∈ p
  · obtain ⟨d, b, rfl, hb⟩ := exists_last_occurrence '/' p hs
    have hDir : Dir (d ++ '/' :: b) = Clean (d ++ ['/']) := by
      unfold Dir
      rw [Split_last d b hb]
    rcases clean_fixed_last_slash d b hb hfix with ⟨rfl, rfl⟩ | ⟨hbn, hd⟩
    · decide
    · have hB : Base (d ++ '/' :: b) = b := Base_last d b hbn hb
      have hb1 : b ≠ ['/'] := by
        rintro rfl
        exact hb (by simp)
      rcases hd with rfl | ⟨hbuf, hd1, hd2⟩
      · have hD : Dir ([] ++ '/' :: b) = ['/'] := by
          rw [hDir]; decide
        rw [hD, hB]
        unfold joinPath
        rw [if_neg hb1, if_neg (by decide), if_pos rfl]
        rfl
      · have hdne : d ≠ [] := by
          rintro rfl
          have : (cleanState ['/']).1 = ['/'] := by decide
          rw [List.nil_append, this] at hbuf
          cases hbuf
        have hD : Dir (d ++ '/' :: b) = d := by
          rw [hDir]
          exact Clean_eq_of_buf _ d (by simp) hdne hbuf
        rw [hD, hB]
        unfold joinPath
        rw [if_neg hb1, if_neg hd1, if_neg hd2]
  · have h0 : p ≠ [] := by
      rintro rfl
      have : Clean [] = ['.'] := by decide
      rw [this] at hfix
      cases hfix
    have hD : Dir p = ['.'] := by
      unfold Dir
      rw [Split_no_slash p hs]
      show Clean [] = ['.']
      decide
    have hB : Base p = p := Base_no_slash p h0 hs
    have hb1 : p ≠ ['/'] := by
      rintro rfl
      exact hs (by simp)
    rw [hD, hB]
    unfold joinPath
    rw [if_neg hb1, if_pos rfl]

theorem last_split_unique (c : Char) :
    ∀ (a1 a2 b1 b2 : GoString), c ∉ b1 → c ∉ b2 → a1 ++ c :: b1 = a2 ++ c :: b2 →
      a1 = a2 ∧ b1 = b2 := by
  intro a1
  induction a1 with
  | nil =>
    intro a2 b1 b2 h1 h2 h
    cases a2 with
    | nil => simpa using h
    | cons y a2 =>
      exfalso
      simp only [List.nil_append, List.cons_append, List.cons.injEq] at h
      apply h1
      rw [h.2]
      simp
  | cons x a1 ih =>
    intro a2 b1 b2 h1 h2 h
    cases a2 with
    | nil =>
      exfalso
      simp only [List.nil_append, List.cons_append, List.cons.injEq] at h
      apply h2
      rw [← h.2]
      simp
    | cons y a2 =>
      simp only [List.cons_append, List.cons.injEq] at h
      obtain ⟨hxy, hrest⟩ := h
      obtain ⟨ha, hb⟩ := ih a2 b1 b2 h1 h2 hrest
      exact ⟨by rw [hxy, ha], hb⟩

/-- The key string determines the pair `(path.Dir, path.Base)` it was made of. -/
theorem fileKey_inj_pair (p q : GoString) (h : fileKey p = fileKey q) :
    Dir p = Dir q ∧ Base p = Base q := by
  unfold fileKey at h
  have h1 : Dir p ++ '/' :: '/' :: Base p = Dir q ++ '/' :: '/' :: Base q := by
    have : "file:".toList ++ (Dir p ++ '/' :: '/' :: Base p)
        = "file:".toList ++ (Dir q ++ '/' :: '/' :: Base q) := by
      simpa [List.append_assoc] using h
    exact List.append_cancel_left this
  obtain ⟨hp0, hp⟩ := Base_shape p
  obtain ⟨hq0, hq⟩ := Base_shape q
  have hlast : ∀ (D B : GoString) (hB : B ≠ []),
      (D ++ '/' :: '/' :: B).getLast (by simp) = B.getLast hB := by
    intro D B hB
    have e : D ++ '/' :: '/' :: B = (D ++ ['/', '/']) ++ B := by simp
    simp only [e]
    rw [List.getLast_append_of_ne_nil hB]
  have hmixed : ∀ (D1 D2 B : GoString), B ≠ [] → '/' ∉ B →
      D1 ++ '/' :: '/' :: ['/'] = D2 ++ '/' :: '/' :: B → False := by
    intro D1 D2 B hB hns heq
    have h2 := hlast D2 B hB
    have h3 := hlast D1 ['/'] (by simp)
    simp only [heq] at h3
    rw [h2] at h3
    apply hns
    have := List.getLast_mem hB
    rw [h3] at this
    simpa using this
  rcases hp with hp | hp <;> rcases hq with hq | hq
  · rw [hp, hq] at h1 ⊢
    have e1 : ∀ D : GoString, D ++ '/' :: '/' :: ['/'] = D ++ ['/', '/', '/'] := by
      intro D; rfl
    rw [e1, e1] at h1
    exact ⟨List.append_cancel_right h1, rfl⟩
  · exfalso
    rw [hp] at h1
    exact hmixed _ _ _ hq0 hq h1
  · exfalso
    rw [hq] at h1
    exact hmixed _ _ _ hp0 hp h1.symm
  · have e1 : ∀ D B : GoString, D ++ '/' :: '/' :: B = (D ++ ['/']) ++ '/' :: B := by
      intro D B; simp
    rw [e1, e1] at h1
    obtain ⟨ha, hb⟩ := last_split_unique '/' _ _ _ _ hp hq h1
    exact ⟨List.append_cancel_right ha, hb⟩

/-! ## `path.Clean` is the identity on its own results -/

theorem backtrack_le (buf : GoString) (dd : Nat) : ∀ w : Nat, backtrack buf dd w ≤ w := by
  intro w
  induction w with
  | zero => simp [backtrack]
  | succ w ih =>
    rw [backtrack]
    split_ifs
    · omega
    · exact le_rfl

theorem le_backtrack (buf : GoString) (dd : Nat) :
    ∀ w : Nat, dd ≤ w → dd ≤ backtrack buf dd w := by
  intro w
  induction w with
  | zero => intro h; simpa [backtrack] using h
  | succ w ih =>
    intro h
    rw [backtrack]
    split_ifs with hc
    · exact ih (by omega)
    · exact h

theorem backtrack_eq (buf : GoString) (dd lo : Nat) :
    ∀ n : Nat, (∀ w, lo < w → w ≤ lo + n → w > dd ∧ buf[w]? ≠ some '/') →
      (lo = 0 ∨ ¬ (lo > dd ∧ buf[lo]? ≠ some '/')) → backtrack buf dd (lo + n) = lo := by
  intro n
  induction n with
  | zero =>
    intro _ hlo
    rw [Nat.add_zero]
    cases lo with
    | zero => rfl
    | succ lo =>
      rw [backtrack, if_neg]
      rcases hlo with h | h
      · omega
      · exact h
  | succ n ih =>
    intro hw hlo
    rw [show lo + (n + 1) = (lo + n) + 1 by omega, backtrack, if_pos (hw _ (by omega) (by omega))]
    exact ih (fun w h1 h2 => hw w h1 (by omega)) hlo

theorem basic_initState (rooted : Bool) : Basic rooted (initState rooted) := by
  cases rooted <;> simp [Basic, initState]

theorem basic_elemStep (rooted : Bool) (e : GoString) (S : GoString × Nat)
    (hS : Basic rooted S) (hne : e ≠ []) (he : '/' ∉ e) : Basic rooted (elemStep rooted e S) := by
  obtain ⟨out, dd⟩ := S
  obtain ⟨h1, h2, h3⟩ := hS
  simp only at h1 h2 h3
  have hehead : e.head? ≠ some '/' := by
    cases e with
    | nil => simp
    | cons x e =>
      simp only [List.head?_cons, ne_eq, Option.some.injEq]
      rintro rfl
      exact he (List.mem_cons_self _ _)
  unfold elemStep
  by_cases c1 : e = ['.']
  · rw [if_pos c1]; exact ⟨h1, h2, h3⟩
  · rw [if_neg c1]
    by_cases c2 : e = ['.', '.']
    · rw [if_pos c2]
      simp only
      by_cases c3 : out.length > dd
      · rw [if_pos c3]
        have hk1 := backtrack_le out dd (out.length - 1)
        have hk2 := le_backtrack out dd (out.length - 1) (by omega)
        refine ⟨?_, ?_, ?_⟩
        · simp only [List.length_take]
          omega
        · intro hr
          obtain ⟨h2a, h2b⟩ := h2 hr
          refine ⟨?_, h2b⟩
          cases out with
          | nil => simp at h2a
          | cons x out =>
            obtain ⟨k, hk⟩ : ∃ k, backtrack (x :: out) dd ((x :: out).length - 1) = k + 1 :=
              ⟨backtrack (x :: out) dd ((x :: out).length - 1) - 1, by omega⟩
            rw [hk]
            simpa using h2a
        · intro hr
          have := h3 hr
          cases out with
          | nil => simp
          | cons x out =>
            cases hk : backtrack (x :: out) dd ((x :: out).length - 1) with
            | zero => simp
            | succ k => simpa using this
      · rw [if_neg c3]
        cases rooted with
        | true => simpa using ⟨h1, h2, h3⟩
        | false =>
          simp only [if_true]
          refine ⟨le_rfl, by simp, ?_⟩
          intro _
          have := h3 rfl
          cases out with
          | nil => simp
          | cons x out => simpa using this
    · rw [if_neg c2]
      simp only
      refine ⟨?_, ?_, ?_⟩
      · split_ifs <;> simp <;> omega
      · intro hr
        obtain ⟨h2a, h2b⟩ := h2 hr
        refine ⟨?_, h2b⟩
        cases out with
        | nil => simp at h2a
        | cons x out =>
          split_ifs <;> simpa using h2a
      · intro hr
        have := h3 hr
        cases out with
        | nil => simpa [hr] using hehead
        | cons x out =>
          split_ifs <;> simpa using this

theorem basic_cl (rooted : Bool) :
    ∀ (n : Nat) (rest : GoString) (S : GoString × Nat), rest.length ≤ n → Basic rooted S →
      Basic rooted (cl rooted rest S) := by
  intro n
  induction n with
  | zero =>
    intro rest S h hS
    have : rest = [] := List.length_eq_zero.mp (by omega)
    subst this
    rwa [cl_nil]
  | succ n ih =>
    intro rest S h hS
    cases rest with
    | nil => rwa [cl_nil]
    | cons c t =>
      have ht : t.length ≤ n := by simpa using h
      by_cases hc : c = '/'
      · subst hc
        rw [cl_slash]
        exact ih t S ht hS
      · obtain ⟨e, r, hsplit, hne, he, hr, hlen⟩ := elem_split c t hc
        rw [hsplit, cl_elem rooted e r S hne he hr]
        exact ih r _ (by omega) (basic_elemStep rooted e S hS hne he)

theorem stable_initState (rooted : Bool) : Stable rooted (initState rooted) := by
  refine ⟨basic_initState rooted, ?_⟩
  cases rooted <;> simp [initState, loopInput, cl_nil]

theorem loopInput_append (rooted : Bool) (o x : GoString) (h : rooted = true → o ≠ []) :
    loopInput rooted (o ++ x) = loopInput rooted o ++ x := by
  cases rooted with
  | false => simp [loopInput]
  | true =>
    cases o with
    | nil => exact absurd rfl (h rfl)
    | cons c o => simp [loopInput]

theorem cl_initState_length (rooted : Bool) (o : GoString)
    (h : rooted = true → o.head? = some '/') :
    (cl rooted (loopInput rooted o) (initState rooted)).1.length ≤ o.length := by
  cases rooted with
  | false =>
    have := (cl_length false _ o ([], 0) le_rfl).2 (Or.inr (by simp))
    simpa [loopInput, initState] using this
  | true =>
    cases o with
    | nil => simp at h
    | cons c o =>
      have := (cl_length true _ o (['/'], 1) le_rfl).2 (Or.inr (by simp))
      simp only [loopInput, initState, if_true, List.drop_succ_cons, List.drop_zero,
        List.length_cons, List.length_nil] at this ⊢
      omega

theorem basic_nonempty (rooted : Bool) (S : GoString × Nat) (hS : Basic rooted S)
    (hr : rooted = true) : S.1 ≠ [] := by
  intro h
  have := (hS.2.1 hr).1
  rw [h] at this
  simp at this

/-- Pushing an element after a slash onto a stable state: the loop run on the
new buffer ends with the step of that element. -/
theorem stable_push (rooted : Bool) (S : GoString × Nat) (hS : Stable rooted S)
    (e : GoString) (he : '/' ∉ e) (hne : e ≠ []) (h0 : S.1 ≠ []) :
    cl rooted (loopInput rooted (S.1 ++ '/' :: e)) (initState rooted) = elemStep rooted e S := by
  rw [loopInput_append rooted S.1 _ (fun _ => h0), cl_last rooted _ e _ he, if_neg hne, hS.2]

/-- Pushing the first element onto the initial state. -/
theorem stable_first (rooted : Bool) (e : GoString) (he : '/' ∉ e) (hne : e ≠ []) :
    cl rooted (loopInput rooted ((initState rooted).1 ++ e)) (initState rooted)
      = elemStep rooted e (initState rooted) := by
  have h1 : loopInput rooted ((initState rooted).1 ++ e) = e := by
    cases rooted <;> simp [loopInput, initState]
  rw [h1]
  have := cl_elem rooted e [] (initState rooted) hne he (Or.inl rfl)
  rw [List.append_nil, cl_nil] at this
  exact this

theorem getElem?_ne_of_not_mem (l : GoString) (c : Char) (h : c ∉ l) (i : Nat) :
    l[i]? ≠ some c := by
  intro hi
  exact h (List.getElem?_mem hi)

/-- The `..` case of `path.Clean` on a stable state with something to remove
leads to a stable state. -/
theorem stable_backtrack (rooted : Bool) (out : GoString) (dd : Nat)
    (hS : Stable rooted (out, dd)) (hgt : out.length > dd) :
    cl rooted (loopInput rooted (out.take (backtrack out dd (out.length - 1))))
      (initState rooted) = (out.take (backtrack out dd (out.length - 1)), dd) := by
  obtain ⟨⟨hb1, hb2, hb3⟩, hrep⟩ := hS
  simp only at hb1 hb2 hb3 hrep
  have hout : out ≠ [] := by
    rintro rfl
    simp at hgt
  by_cases hs : '/' ∈ out
  · obtain ⟨o, e, rfl, he⟩ := exists_last_occurrence '/' out hs
    have hlen : (o ++ '/' :: e).length - 1 = o.length + e.length := by simp
    have hget : ∀ w, o.length < w → (o ++ '/' :: e)[w]? ≠ some '/' := by
      intro w hw
      rw [List.getElem?_append_right (by omega)]
      obtain ⟨j, hj⟩ : ∃ j, w - o.length = j + 1 := ⟨w - o.length - 1, by omega⟩
      rw [hj, List.getElem?_cons_succ]
      exact getElem?_ne_of_not_mem e '/' he j
    have hget0 : (o ++ '/' :: e)[o.length]? = some '/' := by
      rw [List.getElem?_append_right (le_refl _)]
      simp
    by_cases ho : o = []
    · subst ho
      have hr : rooted = true := by
        cases rooted with
        | true => rfl
        | false => exact absurd (by simp) (hb3 rfl)
      subst hr
      obtain ⟨-, hdd⟩ := hb2 rfl
      subst hdd
      have hk : backtrack ([] ++ '/' :: e) 1 (([] ++ '/' :: e).length - 1) = 1 := by
        have h1 : ([] ++ '/' :: e).length - 1 = 1 + (e.length - 1) := by
          simp only [List.nil_append, List.length_cons] at hgt ⊢
          omega
        rw [h1]
        apply backtrack_eq
        · intro w hw1 hw2
          exact ⟨hw1, hget w (by simpa using (by omega : 0 < w))⟩
        · right
          omega
      rw [hk]
      simp [loopInput, initState, cl_nil]
    · have hhead : rooted = true → o.head? = some '/' := by
        intro hr
        have := (hb2 hr).1
        cases o with
        | nil => exact absurd rfl ho
        | cons x o => simpa using this
      have hT1 := cl_initState_length rooted o hhead
      have hTb := basic_cl rooted _ (loopInput rooted o) (initState rooted) le_rfl
        (basic_initState rooted)
      rw [loopInput_append rooted o _ (fun _ => ho), cl_last rooted _ e _ he] at hrep
      generalize hT : cl rooted (loopInput rooted o) (initState rooted) = T at hrep hT1 hTb
      obtain ⟨t, td⟩ := T
      simp only at hT1
      have hTeq : t = o ∧ td = dd := by
        by_cases hen : e = []
        · exfalso
          rw [if_pos hen] at hrep
          have := congrArg (fun S : GoString × Nat => S.1.length) hrep
          simp only [List.length_append, List.length_cons] at this
          omega
        · rw [if_neg hen] at hrep
          unfold elemStep at hrep
          by_cases c1 : e = ['.']
          · exfalso
            rw [if_pos c1] at hrep
            have := congrArg (fun S : GoString × Nat => S.1.length) hrep
            simp only [List.length_append, List.length_cons] at this
            omega
          · rw [if_neg c1] at hrep
            by_cases c2 : e = ['.', '.']
            · exfalso
              rw [if_pos c2] at hrep
              simp only at hrep
              by_cases c3 : t.length > td
              · rw [if_pos c3] at hrep
                have := congrArg (fun S : GoString × Nat => S.1.length) hrep
                simp only [List.length_take, List.length_append, List.length_cons] at this
                omega
              · rw [if_neg c3] at hrep
                cases rooted with
                | true =>
                  simp only [Bool.true_eq_false, if_false] at hrep
                  have := congrArg (fun S : GoString × Nat => S.1.length) hrep
                  simp only [List.length_append, List.length_cons] at this
                  omega
                | false =>
                  simp only [if_true] at hrep
                  have h1 := congrArg (fun S : GoString × Nat => S.1.length) hrep
                  have h2 := congrArg (fun S : GoString × Nat => S.2) hrep
                  simp only at h1 h2
                  omega
            · rw [if_neg c2] at hrep
              simp only [Prod.mk.injEq] at hrep
              obtain ⟨hrep1, hrep2⟩ := hrep
              refine ⟨?_, hrep2⟩
              split_ifs at hrep1
              · have : (t ++ ['/']) ++ e = (o ++ ['/']) ++ e := by simpa using hrep1
                exact List.append_cancel_right (List.append_cancel_right this)
              · exfalso
                have : t ++ e = (o ++ ['/']) ++ e := by simpa using hrep1
                have := congrArg List.length (List.append_cancel_right this)
                simp only [List.length_append, List.length_cons, List.length_nil] at this
                omega
      obtain ⟨rfl, rfl⟩ := hTeq
      have hdd : td ≤ t.length := hTb.1
      have hk : backtrack (t ++ '/' :: e) td ((t ++ '/' :: e).length - 1) = t.length := by
        rw [hlen]
        apply backtrack_eq
        · intro w hw1 _
          exact ⟨by omega, hget w hw1⟩
        · right
          rintro ⟨-, h⟩
          exact h hget0
      rw [hk, List.take_left]
      exact hT
  · have hr : rooted = false := by
      cases rooted with
      | false => rfl
      | true =>
        exfalso
        apply hs
        have := (hb2 rfl).1
        cases out with
        | nil => simp at this
        | cons x out =>
          simp only [List.head?_cons, Option.some.injEq] at this
          rw [this]
          simp
    subst hr
    have hstep := cl_elem false out [] ([], 0) hout hs (Or.inl rfl)
    rw [List.append_nil, cl_nil] at hstep
    have hrep2 : elemStep false out ([], 0) = (out, dd) := by
      rw [← hstep]
      simpa [loopInput, initState] using hrep
    have hdd : dd = 0 := by
      unfold elemStep at hrep2
      by_cases c1 : out = ['.']
      · rw [if_pos c1] at hrep2
        have := congrArg (fun S : GoString × Nat => S.2) hrep2
        simpa using this.symm
      · rw [if_neg c1] at hrep2
        by_cases c2 : out = ['.', '.']
        · exfalso
          rw [if_pos c2] at hrep2
          subst c2
          simp only [List.length_nil, gt_iff_lt, lt_self_iff_false, if_false, if_true,
            List.nil_append, List.length_cons, Prod.mk.injEq, true_and] at hrep2
          simp only [List.length_cons, List.length_nil] at hgt
          omega
        · rw [if_neg c2] at hrep2
          have := congrArg (fun S : GoString × Nat => S.2) hrep2
          simpa using this.symm
    subst hdd
    have hk : backtrack out 0 (out.length - 1) = 0 := by
      have := backtrack_eq out 0 0 (out.length - 1)
        (fun w hw1 _ => ⟨hw1, getElem?_ne_of_not_mem out '/' hs w⟩) (Or.inl rfl)
      simpa using this
    rw [hk]
    simp [loopInput, initState, cl_nil]

theorem stable_elemStep (rooted : Bool) (e : GoString) (S : GoString × Nat)
    (hS : Stable rooted S) (hne : e ≠ []) (he : '/' ∉ e) : Stable rooted (elemStep rooted e S) := by
  refine ⟨basic_elemStep rooted e S hS.1 hne he, ?_⟩
  obtain ⟨out, dd⟩ := S
  have hb := hS.1
  obtain ⟨hb1, hb2, hb3⟩ := hb
  simp only at hb1 hb2 hb3
  have hinit : (rooted = true ∧ out.length = 1) ∨ (rooted = false ∧ out.length = 0) →
      (out, dd) = initState rooted := by
    rintro (⟨hr, hl⟩ | ⟨hr, hl⟩)
    · subst hr
      obtain ⟨hh, hd⟩ := hb2 rfl
      cases out with
      | nil => simp at hl
      | cons x out =>
        have : out = [] := List.length_eq_zero.mp (by simpa using hl)
        subst this
        simp only [List.head?_cons, Option.some.injEq] at hh
        subst hh; subst hd
        rfl
    · subst hr
      have : out = [] := List.length_eq_zero.mp hl
      subst this
      have : dd = 0 := by simpa using hb1
      subst this
      rfl
  by_cases c1 : e = ['.']
  · have : elemStep rooted e (out, dd) = (out, dd) := by
      unfold elemStep; rw [if_pos c1]
    rw [this]
    exact hS.2
  · by_cases c2 : e = ['.', '.']
    · subst c2
      by_cases c3 : out.length > dd
      · have : elemStep rooted ['.', '.'] (out, dd)
            = (out.take (backtrack out dd (out.length - 1)), dd) := by
          unfold elemStep; rw [if_neg c1, if_pos rfl, if_pos c3]
        rw [this]
        exact stable_backtrack rooted out dd hS c3
      · cases hr : rooted with
        | true =>
          subst hr
          have : elemStep true ['.', '.'] (out, dd) = (out, dd) := by
            unfold elemStep; rw [if_neg c1, if_pos rfl, if_neg c3]; simp
          rw [this]
          exact hS.2
        | false =>
          subst hr
          by_cases c4 : out.length > 0
          · have h1 : (elemStep false ['.', '.'] (out, dd)).1 = out ++ '/' :: ['.', '.'] := by
              unfold elemStep; rw [if_neg c1, if_pos rfl, if_neg c3]; simp [c4]
            rw [h1]
            refine stable_push false (out, dd) hS ['.', '.'] he hne ?_
            intro h
            have h2 : out = [] := h
            rw [h2] at c4
            simp at c4
          · have h0 := hinit (Or.inr ⟨rfl, by omega⟩)
            rw [h0]
            have h1 : (elemStep false ['.', '.'] (initState false)).1
                = (initState false).1 ++ ['.', '.'] := by
              decide
            rw [h1]
            exact stable_first false ['.', '.'] he hne
    · by_cases c5 : (rooted = true ∧ out.length ≠ 1) ∨ (rooted = false ∧ out.length ≠ 0)
      · have h1 : (elemStep rooted e (out, dd)).1 = out ++ '/' :: e := by
          unfold elemStep
          rw [if_neg c1, if_neg c2]
          simp only
          rw [if_pos c5]
          simp
        rw [h1]
        refine stable_push rooted (out, dd) hS e he hne ?_
        rcases c5 with ⟨hr, -⟩ | ⟨-, hl⟩
        · exact basic_nonempty rooted (out, dd) hS.1 hr
        · intro h
          have h2 : out = [] := h
          rw [h2] at hl
          simp at hl
      · have h0 : (out, dd) = initState rooted := by
          apply hinit
          cases rooted with
          | true => exact Or.inl ⟨rfl, by by_contra h; exact c5 (Or.inl ⟨rfl, h⟩)⟩
          | false => exact Or.inr ⟨rfl, by by_contra h; exact c5 (Or.inr ⟨rfl, h⟩)⟩
        have h1 : (elemStep rooted e (out, dd)).1 = out ++ e := by
          unfold elemStep
          rw [if_neg c1, if_neg c2]
          simp only
          rw [if_neg c5]
        have key := stable_first rooted e he hne
        rw [← h0] at key
        rw [h1, ← h0]
        exact key

theorem stable_cl (rooted : Bool) :
    ∀ (n : Nat) (rest : GoString) (S : GoString × Nat), rest.length ≤ n → Stable rooted S →
      Stable rooted (cl rooted rest S) := by
  intro n
  induction n with
  | zero =>
    intro rest S h hS
    have : rest = [] := List.length_eq_zero.mp (by omega)
    subst this
    rwa [cl_nil]
  | succ n ih =>
    intro rest S h hS
    cases rest with
    | nil => rwa [cl_nil]
    | cons c t =>
      have ht : t.length ≤ n := by simpa using h
      by_cases hc : c = '/'
      · subst hc
        rw [cl_slash]
        exact ih t S ht hS
      · obtain ⟨e, r, hsplit, hne, he, hr, hlen⟩ := elem_split c t hc
        rw [hsplit, cl_elem rooted e r S hne he hr]
        exact ih r _ (by omega) (stable_elemStep rooted e S hS hne he)

theorem cleanState_eq (x : GoString) :
    cleanState x = cl (decide (x.head? = some '/')) (loopInput (decide (x.head? = some '/')) x)
      (initState (decide (x.head? = some '/'))) := by
  unfold cleanState
  by_cases h : x.head? = some '/'
  · simp [h, loopInput, initState]
  · simp [h, loopInput, initState]

theorem stable_cleanState (x : GoString) :
    Stable (decide (x.head? = some '/')) (cleanState x) := by
  rw [cleanState_eq]
  exact stable_cl _ _ _ _ le_rfl (stable_initState _)

/-- The loop of `path.Clean`, run on the buffer it has produced, ends in the
state it was in. -/
theorem cleanState_idem (x : GoString) : cleanState (cleanState x).1 = cleanState x := by
  obtain ⟨⟨-, hb2, hb3⟩, hrep⟩ := stable_cleanState x
  have hhead : decide ((cleanState x).1.head? = some '/') = decide (x.head? = some '/') := by
    by_cases h : x.head? = some '/'
    · have := (hb2 (by simpa using h)).1
      simp [h, this]
    · have := hb3 (by simpa using h)
      simp [h, this]
  rw [cleanState_eq (cleanState x).1, hhead]
  exact hrep

/-- `path.Clean` is idempotent. -/
theorem Clean_idem (x : GoString) : Clean (Clean x) = Clean x := by
  by_cases hx : x = []
  · subst hx; decide
  · by_cases h0 : (cleanBuf x).length = 0
    · have : Clean x = ['.'] := by
        unfold Clean; rw [if_neg hx, if_pos h0]
      rw [this]; decide
    · have h1 : Clean x = cleanBuf x := by
        unfold Clean; rw [if_neg hx, if_neg h0]
      have h2 : cleanBuf x ≠ [] := fun h => h0 (by rw [h]; rfl)
      rw [h1]
      unfold Clean
      rw [if_neg h2, cleanBuf_eq (cleanBuf x), cleanBuf_eq x, cleanState_idem, if_neg]
      rw [← cleanBuf_eq]; exact h0

theorem basic_eq_initState (rooted : Bool) (S : GoString × Nat) (hS : Basic rooted S)
    (h : ¬ ((rooted = true ∧ S.1.length ≠ 1) ∨ (rooted = false ∧ S.1.length ≠ 0))) :
    S = initState rooted := by
  obtain ⟨out, dd⟩ := S
  obtain ⟨hb1, hb2, hb3⟩ := hS
  simp only at hb1 hb2 hb3 h
  cases rooted with
  | true =>
    have hl : out.length = 1 := by
      by_contra h1; exact h (Or.inl ⟨rfl, h1⟩)
    obtain ⟨hh, hd⟩ := hb2 rfl
    cases out with
    | nil => simp at hl
    | cons x out =>
      have : out = [] := List.length_eq_zero.mp (by simpa using hl)
      subst this
      simp only [List.head?_cons, Option.some.injEq] at hh
      subst hh; subst hd
      rfl
  | false =>
    have hl : out.length = 0 := by
      by_contra h1; exact h (Or.inr ⟨rfl, h1⟩)
    have : out = [] := List.length_eq_zero.mp hl
    subst this
    have : dd = 0 := by simpa using hb1
    subst this
    rfl

theorem Clean_of_cleanState (x : GoString) (hx : x ≠ []) :
    Clean x = if (cleanState x).1 = [] then ['.'] else (cleanState x).1 := by
  unfold Clean
  rw [if_neg hx, cleanBuf_eq]
  by_cases h : (cleanState x).1 = []
  · rw [if_pos h, if_pos (by rw [h]; rfl)]
  · rw [if_neg h, if_neg (fun h0 => h (List.length_eq_zero.mp h0))]

/-- A path name whose last element is an ordinary name (not empty, `"."` or
`".."`) has the key of its cleaned form. -/
theorem fileKey_Clean (p : GoString)
    (hp : (Split p).2 ≠ [] ∧ (Split p).2 ≠ ['.'] ∧ (Split p).2 ≠ ['.', '.']) :
    fileKey (Clean p) = fileKey p := by
  suffices h : Dir (Clean p) = Dir p ∧ Base (Clean p) = Base p by
    unfold fileKey
    rw [h.1, h.2]
  by_cases hs : '/' ∈ p
  · obtain ⟨d, b, rfl, hb⟩ := exists_last_occurrence '/' p hs
    rw [Split_last d b hb] at hp
    obtain ⟨c0, c1, c2⟩ := hp
    simp only at c0 c1 c2
    have hroot : decide ((d ++ ['/']).head? = some '/')
        = decide ((d ++ '/' :: b).head? = some '/') := by
      cases d <;> simp
    have hstab := stable_cleanState (d ++ ['/'])
    rw [hroot] at hstab
    have hcs := cleanState_last d b hb
    rw [if_neg c0] at hcs
    generalize hS : cleanState (d ++ ['/']) = S at hstab hcs
    generalize hR : decide ((d ++ '/' :: b).head? = some '/') = rooted at hstab hcs
    have hDirp : Dir (d ++ '/' :: b) = if S.1 = [] then ['.'] else S.1 := by
      unfold Dir
      rw [Split_last d b hb]
      simp only
      rw [Clean_of_cleanState _ (by simp), hS]
    have hBasep : Base (d ++ '/' :: b) = b := Base_last d b c0 hb
    have hstep : (elemStep rooted b S).1
        = (if (rooted = true ∧ S.1.length ≠ 1) ∨ (rooted = false ∧ S.1.length ≠ 0) then
            S.1 ++ ['/'] else S.1) ++ b := by
      unfold elemStep
      rw [if_neg c1, if_neg c2]
    have hne : (elemStep rooted b S).1 ≠ [] := by
      rw [hstep]
      intro h
      exact c0 (List.append_eq_nil.mp h).2
    have hClean : Clean (d ++ '/' :: b) = (elemStep rooted b S).1 := by
      rw [Clean_of_cleanState _ (by simp), hcs, if_neg hne]
    rw [hClean, hstep, hDirp, hBasep]
    by_cases c5 : (rooted = true ∧ S.1.length ≠ 1) ∨ (rooted = false ∧ S.1.length ≠ 0)
    · rw [if_pos c5]
      have hS1 : S.1 ≠ [] := by
        rcases c5 with ⟨hr, -⟩ | ⟨-, hl⟩
        · exact basic_nonempty rooted S hstab.1 hr
        · intro h; rw [h] at hl; simp at hl
      have e : S.1 ++ ['/'] ++ b = S.1 ++ '/' :: b := by simp
      rw [e]
      constructor
      · unfold Dir
        rw [Split_last S.1 b hb]
        simp only
        rw [Clean_of_cleanState _ (by simp), cleanState_trailing S.1 hS1, ← hS,
          cleanState_idem]
      · exact Base_last S.1 b c0 hb
    · rw [if_neg c5]
      have h0 := basic_eq_initState rooted S hstab.1 c5
      rw [h0]
      cases rooted with
      | true =>
        have e : (initState true).1 ++ b = [] ++ '/' :: b := rfl
        rw [e]
        constructor
        · unfold Dir
          rw [Split_last [] b hb]
          show Clean ['/'] = if (initState true).1 = [] then ['.'] else (initState true).1
          decide
        · exact Base_last [] b c0 hb
      | false =>
        have e : (initState false).1 ++ b = b := rfl
        rw [e]
        constructor
        · unfold Dir
          rw [Split_no_slash b hb]
          show Clean [] = if (initState false).1 = [] then ['.'] else (initState false).1
          decide
        · exact Base_no_slash b c0 hb
  · rw [Split_no_slash p hs] at hp
    obtain ⟨c0, c1, c2⟩ := hp
    simp only at c0 c1 c2
    have hhead : ¬ p.head? = some '/' := by
      intro h
      apply hs
      cases p with
      | nil => simp at h
      | cons x p =>
        simp only [List.head?_cons, Option.some.injEq] at h
        rw [h]; simp
    have hcs : cleanState p = (p, 0) := by
      unfold cleanState
      rw [if_neg hhead]
      have := cl_elem false p [] ([], 0) c0 hs (Or.inl rfl)
      rw [List.append_nil, cl_nil] at this
      rw [this]
      unfold elemStep
      rw [if_neg c1, if_neg c2]
      simp
    have hClean : Clean p = p := by
      rw [Clean_of_cleanState p c0, hcs, if_neg c0]
    rw [hClean]
    exact ⟨rfl, rfl⟩

/-! ## The ancestor walk of a relative path -/

/-- One step of the ancestor walk from a relative path ends the walk or leads
to a shorter relative path. -/
theorem Dir_relative (p : GoString) (hrel : p.head? ≠ some '/') :
    Dir p = ['.'] ∨ ((Dir p).length < p.length ∧ (Dir p).head? ≠ some '/') := by
  by_cases hs : '/' ∈ p
  · obtain ⟨d, b, rfl, hb⟩ := exists_last_occurrence '/' p hs
    have hd : d ≠ [] := by
      rintro rfl
      exact hrel rfl
    have hroot : decide ((d ++ ['/']).head? = some '/') = false := by
      cases d with
      | nil => exact absurd rfl hd
      | cons x d => simpa using hrel
    have hDir : Dir (d ++ '/' :: b)
        = if (cleanState (d ++ ['/'])).1 = [] then ['.'] else (cleanState (d ++ ['/'])).1 := by
      unfold Dir
      rw [Split_last d b hb]
      exact Clean_of_cleanState _ (by simp)
    by_cases h0 : (cleanState (d ++ ['/'])).1 = []
    · left
      rw [hDir, if_pos h0]
    · right
      rw [hDir, if_neg h0]
      constructor
      · rw [cleanState_trailing d hd]
        have := cleanState_length d
        simp only [List.length_append, List.length_cons]
        omega
      · have hstab := stable_cleanState (d ++ ['/'])
        rw [hroot] at hstab
        exact hstab.1.2.2 rfl
  · left
    unfold Dir
    rw [Split_no_slash p hs]
    show Clean [] = ['.']
    decide

/-- The ancestor walk of a relative path reaches `"."`, within one step more
than the path has bytes. -/
theorem walk_ends_of_relative :
    ∀ (n : Nat) (p : GoString), p.length ≤ n → p.head? ≠ some '/' →
      ∃ k, k ≤ n + 1 ∧ Dir^[k] p = ['.'] := by
  intro n
  induction n with
  | zero =>
    intro p hp _
    have : p = [] := List.length_eq_zero.mp (by omega)
    subst this
    exact ⟨1, le_rfl, by decide⟩
  | succ n ih =>
    intro p hp hrel
    rcases Dir_relative p hrel with h | ⟨h1, h2⟩
    · exact ⟨1, by omega, by simpa using h⟩
    · obtain ⟨k, hk, hw⟩ := ih (Dir p) (by omega) h2
      exact ⟨k + 1, by omega, by rw [Function.iterate_succ_apply]; exact hw⟩

/-- The ancestor walk of a rooted path never reaches `"."`. -/
theorem walk_never_ends_of_rooted (p : GoString) (hroot : p.head? = some '/') :
    ∀ k : Nat, (Dir^[k] p).head? = some '/' := by
  have hstep : ∀ q : GoString, q.head? = some '/' → (Dir q).head? = some '/' := by
    intro q hq
    have hs : '/' ∈ q := by
      cases q with
      | nil => simp at hq
      | cons x q =>
        simp only [List.head?_cons, Option.some.injEq] at hq
        rw [hq]; simp
    obtain ⟨d, b, rfl, hb⟩ := exists_last_occurrence '/' q hs
    have hroot2 : decide ((d ++ ['/']).head? = some '/') = true := by
      cases d with
      | nil => simp
      | cons x d => simpa using hq
    have hstab := stable_cleanState (d ++ ['/'])
    rw [hroot2] at hstab
    have hne := basic_nonempty true _ hstab.1 rfl
    unfold Dir
    rw [Split_last d b hb]
    simp only
    rw [Clean_of_cleanState _ (by simp), if_neg hne]
    exact (hstab.1.2.1 rfl).1
  intro k
  induction k with
  | zero => exact hroot
  | succ k ih =>
    rw [Function.iterate_succ_apply']
    exact hstep _ ih

/-! ## Lemmas on `Mkdir` -/

theorem update_mkdirTx (u : Decoder) (db : DB) (name dir : GoString) :
    db.Update (mkdirTx u name dir) =
      (match db.record u dir with
        | some hs => if hs.IsDir = false then some (mkdirErr name) else none
        | none => none, db) := by
  unfold DB.Update mkdirTx DB.record mkdirErr
  cases h : fileInfo u ⟨db.items⟩ dir with
  | none => simp
  | some hs => cases hd : hs.IsDir <;> simp [hd]

theorem mkdirLoop_sound (u : Decoder) (name : GoString) (db : DB) :
    ∀ (fuel : Nat) (dir : GoString) (r : error × DB),
      mkdirLoop u name fuel db dir = some r →
        r.2 = db ∧ (r.1 = none ∨ r.1 = some (mkdirErr name)) ∧
        (r.1 ≠ none ↔ ∃ k, (∀ j, j ≤ k → Dir^[j] dir ≠ ['.']) ∧
            ∃ hs, db.record u (Dir^[k] dir) = some hs ∧ hs.IsDir = false) := by
  intro fuel
  induction fuel with
  | zero => intro dir r h; simp [mkdirLoop] at h
  | succ fuel ih =>
    intro dir r h
    rw [mkdirLoop] at h
    by_cases hdot : dir = ['.']
    · rw [if_pos hdot] at h
      cases h
      refine ⟨rfl, Or.inl rfl, ?_⟩
      constructor
      · intro hne; exact absurd rfl hne
      · rintro ⟨k, hk, -⟩
        exact absurd hdot (hk 0 (Nat.zero_le _))
    · rw [if_neg hdot, update_mkdirTx] at h
      cases hrec : db.record u dir with
      | none =>
        rw [hrec] at h
        obtain ⟨h1, h2, h3⟩ := ih (Dir dir) r h
        refine ⟨h1, h2, h3.trans ?_⟩
        constructor
        · rintro ⟨k, hk, hs, hr, hd⟩
          refine ⟨k + 1, ?_, hs, by simpa [Function.iterate_succ_apply] using hr, hd⟩
          intro j hj
          cases j with
          | zero => simpa using hdot
          | succ j =>
            have := hk j (by omega)
            simpa [Function.iterate_succ_apply] using this
        · rintro ⟨k, hk, hs, hr, hd⟩
          cases k with
          | zero => simp [hrec] at hr
          | succ k =>
            refine ⟨k, ?_, hs, by simpa [Function.iterate_succ_apply] using hr, hd⟩
            intro j hj
            have := hk (j + 1) (by omega)
            simpa [Function.iterate_succ_apply] using this
      | some hs0 =>
        rw [hrec] at h
        cases hd0 : hs0.IsDir with
        | false =>
          simp only [hd0, if_true] at h
          cases h
          refine ⟨rfl, Or.inr rfl, ?_⟩
          constructor
          · intro _
            exact ⟨0, fun j hj => by
              have : j = 0 := by omega
              subst this; simpa using hdot, hs0, by simpa using hrec, hd0⟩
          · intro _; simp
        | true =>
          simp only [hd0] at h
          obtain ⟨h1, h2, h3⟩ := ih (Dir dir) r h
          refine ⟨h1, h2, h3.trans ?_⟩
          constructor
          · rintro ⟨k, hk, hs, hr, hd⟩
            refine ⟨k + 1, ?_, hs, by simpa [Function.iterate_succ_apply] using hr, hd⟩
            intro j hj
            cases j with
            | zero => simpa using hdot
            | succ j =>
              have := hk j (by omega)
              simpa [Function.iterate_succ_apply] using this
          · rintro ⟨k, hk, hs, hr, hd⟩
            cases k with
            | zero =>
              simp only [Function.iterate_zero, id_eq] at hr
              rw [hrec] at hr
              cases hr
              rw [hd0] at hd
              cases hd
            | succ k =>
              refine ⟨k, ?_, hs, by simpa [Function.iterate_succ_apply] using hr, hd⟩
              intro j hj
              have := hk (j + 1) (by omega)
              simpa [Function.iterate_succ_apply] using this

theorem mkdirLoop_returns (u : Decoder) (name : GoString) (db : DB) :
    ∀ (n : Nat) (dir : GoString), Dir^[n] dir = ['.'] →
      ∀ fuel, n + 1 ≤ fuel → ∃ r, mkdirLoop u name fuel db dir = some r := by
  intro n
  induction n with
  | zero =>
    intro dir h fuel hf
    obtain ⟨f, rfl⟩ : ∃ f, fuel = f + 1 := ⟨fuel - 1, by omega⟩
    simp only [Function.iterate_zero, id_eq] at h
    exact ⟨_, by rw [mkdirLoop, if_pos h]⟩
  | succ n ih =>
    intro dir h fuel hf
    obtain ⟨f, rfl⟩ : ∃ f, fuel = f + 1 := ⟨fuel - 1, by omega⟩
    rw [mkdirLoop]
    by_cases hdot : dir = ['.']
    · exact ⟨_, by rw [if_pos hdot]⟩
    · rw [if_neg hdot, update_mkdirTx]
      rw [Function.iterate_succ_apply] at h
      obtain ⟨r, hr⟩ := ih (Dir dir) h f (by omega)
      cases hrec : db.record u dir with
      | none => exact ⟨r, by simpa using hr⟩
      | some hs0 =>
        cases hd0 : hs0.IsDir with
        | false => exact ⟨(some (mkdirErr name), db), by simp [hd0]⟩
        | true => exact ⟨r, by simpa [hd0] using hr⟩

/-- Fuel beyond what the loop needs does not change what it returns. -/
theorem mkdirLoop_mono (u : Decoder) (name : GoString) (db : DB) :
    ∀ (fuel : Nat) (dir : GoString) (r : error × DB),
      mkdirLoop u name fuel db dir = some r →
        ∀ fuel2, fuel ≤ fuel2 → mkdirLoop u name fuel2 db dir = some r := by
  intro fuel
  induction fuel with
  | zero => intro dir r h; simp [mkdirLoop] at h
  | succ fuel ih =>
    intro dir r h fuel2 hf
    obtain ⟨f, rfl⟩ : ∃ f, fuel2 = f + 1 := ⟨fuel2 - 1, by omega⟩
    rw [mkdirLoop] at h ⊢
    by_cases hdot : dir = ['.']
    · rw [if_pos hdot] at h ⊢; exact h
    · rw [if_neg hdot, update_mkdirTx] at h ⊢
      cases hrec : db.record u dir with
      | none =>
        rw [hrec] at h
        exact ih _ _ h _ (by omega)
      | some hs0 =>
        rw [hrec] at h
        cases hd0 : hs0.IsDir with
        | false => simpa [hd0] using h
        | true =>
          simp only [hd0] at h ⊢
          exact ih _ _ h _ (by omega)


/-- On a relative path `Mkdir` returns, within two loop-condition evaluations
more than the path has bytes. -/
theorem Mkdir_returns_of_relative (u : Decoder) (db : DB) (name : GoString) (perm : Nat)
    (hrel : name.head? ≠ some '/') (fuel : Nat) (hfuel : name.length + 2 ≤ fuel) :
    ∃ e : error, Mkdir u fuel db name perm = some (e, db) := by
  obtain ⟨k, hk, hw⟩ := walk_ends_of_relative name.length name le_rfl hrel
  obtain ⟨r, hr⟩ := mkdirLoop_returns u name db k name hw fuel (by omega)
  obtain ⟨h1, -, -⟩ := mkdirLoop_sound u name db fuel name r hr
  obtain ⟨e, d⟩ := r
  simp only at h1
  subst h1
  exact ⟨e, hr⟩

/-! ## The claims on `Mkdir`, `RemoveAll` and `hashFileInfo` -/

theorem mkdirLoop_rooted_empty (u : Decoder) (name : GoString) :
    ∀ (fuel : Nat) (dir : GoString), dir.head? = some '/' →
      mkdirLoop u name fuel ⟨[]⟩ dir = none := by
  intro fuel
  induction fuel with
  | zero => intro dir _; rfl
  | succ fuel ih =>
    intro dir hdir
    have hne : dir ≠ ['.'] := by
      rintro rfl
      simp at hdir
    rw [mkdirLoop, if_neg hne, update_mkdirTx]
    simp only [DB.record, fileInfo, Tx.Get, List.find?_nil, Option.map_none']
    exact ih (Dir dir) (walk_never_ends_of_rooted dir hdir 1)

/-- C1 (not met by the code): `Mkdir "a"` on the empty index returns the nil
error, and afterwards the index is still empty: it holds no record for `"a"`,
let alone a directory record. -/
theorem Mkdir_creates_no_record (u : Decoder) (fuel perm : Nat) :
    Mkdir u (fuel + 2) ⟨[]⟩ "a".toList perm = some (none, ⟨[]⟩) ∧
      DB.record u ⟨[]⟩ "a".toList = none := by
  have h : Dir "a".toList = ['.'] := by decide
  refine ⟨?_, rfl⟩
  unfold Mkdir
  rw [mkdirLoop, if_neg (by decide), update_mkdirTx]
  simp only [DB.record, fileInfo, Tx.Get, List.find?_nil, Option.map_none', h]
  rw [mkdirLoop, if_pos rfl]

/-- C2 (not met by the code): the ancestor walk of a rooted path never
reaches the stop value `"."`, since `path.Dir` of a rooted path is rooted;
so on the empty index, where no step returns an error, `Mkdir` of a rooted
path has not returned after any number of loop iterations. -/
theorem Mkdir_rooted_never_returns (u : Decoder) (name : GoString)
    (hroot : name.head? = some '/') (fuel perm : Nat) :
    Mkdir u fuel ⟨[]⟩ name perm = none ∧ ∀ k : Nat, Dir^[k] name ≠ ['.'] := by
  refine ⟨mkdirLoop_rooted_empty u name fuel name hroot, ?_⟩
  intro k h
  have := walk_never_ends_of_rooted name hroot k
  rw [h] at this
  simp at this

theorem Mkdir_rooted_never_returns_witness :
    Mkdir jsonUnmarshal 1000 ⟨[]⟩ "/a".toList 0 = none ∧
      ∀ k : Nat, Dir^[k] "/a".toList ≠ ['.'] :=
  Mkdir_rooted_never_returns jsonUnmarshal "/a".toList (by decide) 1000 0

/-- Under the decoder of the code every record `fileInfo` reads is the zero
record, which is not a directory. -/
theorem record_jsonUnmarshal (db : DB) (name : GoString) (hs : hashFileInfo)
    (hrec : db.record jsonUnmarshal name = some hs) : hs.IsDir = false := by
  unfold DB.record fileInfo at hrec
  cases hget : Tx.Get ⟨db.items⟩ name with
  | none => rw [hget] at hrec; cases hrec
  | some val =>
    rw [hget] at hrec
    simp only [jsonUnmarshal, Option.some.injEq] at hrec
    rw [← hrec]
    decide

/-- For every decoder, a record under the path itself that is not a directory
makes `Mkdir` fail at its first step. -/
theorem Mkdir_existing_file_fails (u : Decoder) (db : DB) (name : GoString)
    (perm fuel : Nat) (hs : hashFileInfo) (hname : name ≠ ['.'])
    (hrec : db.record u name = some hs) (hfile : hs.IsDir = false) :
    Mkdir u (fuel + 1) db name perm
      = some (some ⟨"mkdir".toList, name, Sentinel.ErrFileExists⟩, db) := by
  unfold Mkdir
  rw [mkdirLoop, if_neg hname, update_mkdirTx, hrec]
  simp [hfile, mkdirErr]

/-- C4, as stated, fails: `Mkdir "."` returns nil although a record is stored
under `"."`, because the loop stops at `"."` before it reads anything. -/
theorem Mkdir_dot_existing_record_no_error :
    DB.record jsonUnmarshal ⟨[(".".toList, "x".toList)]⟩ ".".toList ≠ none ∧
      Mkdir jsonUnmarshal 1 ⟨[(".".toList, "x".toList)]⟩ ".".toList 0
        = some (none, ⟨[(".".toList, "x".toList)]⟩) := by
  decide

/-- C4, amended: for every index state and every path other than `"."` whose
record already exists, whatever the stored value says of file or directory,
`Mkdir` fails with the already-exists error, the `*fs.PathError`
`mkdir <path>: afero.ErrFileExists`, and does not return nil. -/
theorem Mkdir_existing_record_fails (db : DB) (name : GoString) (perm fuel : Nat)
    (hs : hashFileInfo) (hname : name ≠ ['.'])
    (hrec : db.record jsonUnmarshal name = some hs) :
    ∃ db1 : DB, Mkdir jsonUnmarshal (fuel + 1) db name perm
      = some (some ⟨"mkdir".toList, name, Sentinel.ErrFileExists⟩, db1) :=
  ⟨db, Mkdir_existing_file_fails jsonUnmarshal db name perm fuel hs hname hrec
    (record_jsonUnmarshal db name hs hrec)⟩

theorem Mkdir_existing_record_fails_witness :
    ∃ db1 : DB,
      Mkdir jsonUnmarshal 1 ⟨[("a".toList, "\x7b\"mode\":2147483648\x7d".toList)]⟩ "a".toList 0
        = some (some ⟨"mkdir".toList, "a".toList, Sentinel.ErrFileExists⟩, db1) :=
  Mkdir_existing_record_fails ⟨[("a".toList, "\x7b\"mode\":2147483648\x7d".toList)]⟩
    "a".toList 0 0 {} (by decide) (by decide)

/-- C5, as stated, fails: with a file record under the parent `"a"`,
`Mkdir "a/b"` fails with `afero.ErrFileExists`, the already-exists kind, and
not with a not-a-directory error. -/
theorem Mkdir_parent_file_error_kind :
    Dir "a/b".toList = "a".toList ∧
    (∃ hs, DB.record jsonUnmarshal ⟨[("a".toList, "x".toList)]⟩ "a".toList = some hs ∧
      hs.IsDir = false) ∧
    Mkdir jsonUnmarshal 2 ⟨[("a".toList, "x".toList)]⟩ "a/b".toList 0
      = some (some ⟨"mkdir".toList, "a/b".toList, Sentinel.ErrFileExists⟩,
          ⟨[("a".toList, "x".toList)]⟩) ∧
    Sentinel.ErrFileExists ≠ Sentinel.ENOTDIR := by
  refine ⟨by decide, ⟨{}, by decide, by decide⟩, by decide, by decide⟩

/-- C5, amended: for every index state and every path whose parent
`path.Dir(path)` is not `"."` and has a record that is not a directory,
`Mkdir` fails with the `*fs.PathError` `mkdir <path>: afero.ErrFileExists`,
the already-exists kind, and the index is unchanged. -/
theorem Mkdir_parent_file_fails (u : Decoder) (db : DB) (name : GoString)
    (perm fuel : Nat) (hs : hashFileInfo)
    (hpar : Dir name ≠ ['.']) (hrec : db.record u (Dir name) = some hs)
    (hfile : hs.IsDir = false) :
    Mkdir u (fuel + 2) db name perm
      = some (some ⟨"mkdir".toList, name, Sentinel.ErrFileExists⟩, db) := by
  have hname : name ≠ ['.'] := by
    rintro rfl
    exact hpar (by decide)
  have step2 : mkdirLoop u name (fuel + 1) db (Dir name) = some (some (mkdirErr name), db) := by
    rw [mkdirLoop, if_neg hpar, update_mkdirTx, hrec]
    simp [hfile]
  unfold Mkdir
  rw [mkdirLoop, if_neg hname, update_mkdirTx]
  cases hown : db.record u name with
  | none => simpa [mkdirErr] using step2
  | some hs0 =>
    cases hd0 : hs0.IsDir with
    | false => simp [mkdirErr, hd0]
    | true => simpa [mkdirErr, hd0] using step2

theorem Mkdir_parent_file_fails_witness :
    Mkdir jsonUnmarshal 2 ⟨[("a".toList, "x".toList)]⟩ "a/b".toList 0
      = some (some ⟨"mkdir".toList, "a/b".toList, Sentinel.ErrFileExists⟩,
          ⟨[("a".toList, "x".toList)]⟩) :=
  Mkdir_parent_file_fails jsonUnmarshal ⟨[("a".toList, "x".toList)]⟩ "a/b".toList 0 0 {}
    (by decide) (by decide) (by decide)


/-- C6, as stated, fails: on the empty index the parent `"a"` of `"a/b"` is
not the root and has no record, yet `Mkdir "a/b"` returns the nil error. -/
theorem Mkdir_missing_parent_no_error :
    Dir "a/b".toList = "a".toList ∧ "a".toList ≠ "/".toList ∧
    DB.record jsonUnmarshal ⟨[]⟩ "a".toList = none ∧
    Mkdir jsonUnmarshal 3 ⟨[]⟩ "a/b".toList 0 = some (none, ⟨[]⟩) := by
  refine ⟨by decide, by decide, by decide, by decide⟩

/-- C6, amended: for every index state and every path whose ancestor walk
reaches `"."` and whose parent has no record, `Mkdir` returns and never with a
NotFound error: it returns nil exactly when no element `d` of the chain before
`"."` has a stored value that `fileInfo` reads as a record with `IsDir()`
false, and otherwise it fails with the `*fs.PathError`
`mkdir <path>: afero.ErrFileExists`. -/
theorem Mkdir_missing_parent_no_NotFound (u : Decoder) (db : DB) (name : GoString)
    (perm n : Nat) (hwalk : Dir^[n] name = ['.'])
    (_hparent : db.record u (Dir name) = none)
    (fuel : Nat) (hfuel : n + 1 ≤ fuel) :
    ∃ (e : error) (db1 : DB), Mkdir u fuel db name perm = some (e, db1) ∧
      (e = none ↔ ¬ ∃ k, (∀ j, j ≤ k → Dir^[j] name ≠ ['.']) ∧
        ∃ hs, db.record u (Dir^[k] name) = some hs ∧ hs.IsDir = false) ∧
      (e = none ∨ e = some ⟨"mkdir".toList, name, Sentinel.ErrFileExists⟩) ∧
      (∀ err : PathError, e = some err → err.Err ≠ Sentinel.ErrFileNotFound) := by
  obtain ⟨r, hr⟩ := mkdirLoop_returns u name db n name hwalk fuel hfuel
  obtain ⟨-, h2, h3⟩ := mkdirLoop_sound u name db fuel name r hr
  obtain ⟨e, d⟩ := r
  simp only at h2 h3
  refine ⟨e, d, hr, ?_, h2, ?_⟩
  · rw [← h3]
    simp
  · intro err herr
    rcases h2 with h | h
    · rw [h] at herr; cases herr
    · rw [h] at herr
      cases herr
      simp [mkdirErr]

theorem Mkdir_missing_parent_no_NotFound_witness :
    ∃ (e : error) (db1 : DB),
      Mkdir jsonUnmarshal 3 ⟨[(".".toList, "x".toList)]⟩ "a/b".toList 0 = some (e, db1) ∧
      (e = none ↔ ¬ ∃ k, (∀ j, j ≤ k → Dir^[j] "a/b".toList ≠ ['.']) ∧
        ∃ hs, DB.record jsonUnmarshal ⟨[(".".toList, "x".toList)]⟩ (Dir^[k] "a/b".toList)
          = some hs ∧ hs.IsDir = false) ∧
      (e = none ∨ e = some ⟨"mkdir".toList, "a/b".toList, Sentinel.ErrFileExists⟩) ∧
      (∀ err : PathError, e = some err → err.Err ≠ Sentinel.ErrFileNotFound) :=
  Mkdir_missing_parent_no_NotFound jsonUnmarshal ⟨[(".".toList, "x".toList)]⟩ "a/b".toList 0 2
    (by decide) (by decide) 3 (by decide)

/-- C7 (not met by the code): `RemoveAll` panics with "not implemented" on
every index state and every path, so it never returns nil. -/
theorem RemoveAll_panics (db : DB) (path : GoString) :
    RemoveAll db path = (Outcome.panicked "not implemented".toList, db) ∧
      (RemoveAll db path).1 ≠ Outcome.returned none := by
  refine ⟨rfl, ?_⟩
  simp [RemoveAll]

/-- C8, as stated, fails: a record whose mode has the directory bit can carry
a hash and a non-zero size, and the zero record, which is not a directory,
has an empty hash. -/
theorem hashFileInfo_dir_and_hash_independent :
    ((⟨{ Name := "d".toList, Size := 1, Hash := "h".toList, Mode := ModeDir }⟩ :
        hashFileInfo).IsDir = true ∧
      (⟨{ Name := "d".toList, Size := 1, Hash := "h".toList, Mode := ModeDir }⟩ :
        hashFileInfo).info.Hash ≠ [] ∧
      (⟨{ Name := "d".toList, Size := 1, Hash := "h".toList, Mode := ModeDir }⟩ :
        hashFileInfo).Size ≠ 0) ∧
    ((({} : hashFileInfo).IsDir = false) ∧ ({} : hashFileInfo).info.Hash = []) := by
  decide

theorem and_two_pow_ne_zero_iff (m i : Nat) : m &&& 2 ^ i ≠ 0 ↔ m.testBit i = true := by
  constructor
  · intro h
    obtain ⟨j, hj⟩ := Nat.ne_zero_implies_bit_true h
    rw [Nat.testBit_and, Nat.testBit_two_pow] at hj
    simp only [Bool.and_eq_true, decide_eq_true_eq] at hj
    obtain ⟨h1, h2⟩ := hj
    rw [h2]; exact h1
  · intro h h0
    have : (m &&& 2 ^ i).testBit i = true := by
      rw [Nat.testBit_and, h, Nat.testBit_two_pow_self]; rfl
    rw [h0] at this
    simp at this

/-- C8, amended: `IsDir()` of a record reports exactly whether bit 31
(`fs.ModeDir`) of its mode is set and `Size()` returns the stored size;
neither is tied to the hash: giving a record another hash and another size
leaves `IsDir()` as it was. -/
theorem hashFileInfo_IsDir_iff_mode_bit (hs : hashFileInfo) (hash : GoString) (size : Int) :
    (hs.IsDir = true ↔ hs.info.Mode.testBit 31 = true) ∧
    hs.Size = hs.info.Size ∧
    (⟨{ hs.info with Hash := hash, Size := size }⟩ : hashFileInfo).IsDir = hs.IsDir ∧
    (⟨{ hs.info with Hash := hash, Size := size }⟩ : hashFileInfo).Size = size := by
  refine ⟨?_, rfl, rfl, rfl⟩
  unfold hashFileInfo.IsDir ModeDir
  rw [bne_iff_ne]
  exact and_two_pow_ne_zero_iff _ _

/-- C10: for every index state, every decoder and every path whose ancestor
walk reaches `"."` after `n` steps (only relative paths have such a walk),
`Mkdir` returns within `n + 1` evaluations of its loop condition and leaves
the index unchanged; it returns an error exactly when some element `d` of the
chain before `"."` has a stored value that `fileInfo` reads as a record with
`IsDir()` false, the error is then the `*fs.PathError` with `Op` "mkdir",
`Path` the original name and `Err` `afero.ErrFileExists`, and otherwise it
returns nil. -/
theorem Mkdir_error_iff_file_in_chain (u : Decoder) (db : DB) (name : GoString)
    (perm n : Nat) (hwalk : Dir^[n] name = ['.']) (fuel : Nat) (hfuel : n + 1 ≤ fuel) :
    ∃ e : error, Mkdir u fuel db name perm = some (e, db) ∧
      (e ≠ none ↔ ∃ k, (∀ j, j ≤ k → Dir^[j] name ≠ ['.']) ∧
        ∃ hs, fileInfo u ⟨db.items⟩ (Dir^[k] name) = some hs ∧ hs.IsDir = false) ∧
      (e = none ∨ e = some ⟨"mkdir".toList, name, Sentinel.ErrFileExists⟩) := by
  obtain ⟨r, hr⟩ := mkdirLoop_returns u name db n name hwalk fuel hfuel
  obtain ⟨h1, h2, h3⟩ := mkdirLoop_sound u name db fuel name r hr
  obtain ⟨e, d⟩ := r
  simp only at h1 h2 h3
  subst h1
  exact ⟨e, hr, h3, h2⟩

theorem Mkdir_error_iff_file_in_chain_witness :
    ∃ e : error,
      Mkdir jsonUnmarshal 3 ⟨[("a".toList, "x".toList)]⟩ "a/b".toList 0
        = some (e, ⟨[("a".toList, "x".toList)]⟩) ∧
      (e ≠ none ↔ ∃ k, (∀ j, j ≤ k → Dir^[j] "a/b".toList ≠ ['.']) ∧
        ∃ hs, fileInfo jsonUnmarshal ⟨[("a".toList, "x".toList)]⟩ (Dir^[k] "a/b".toList)
          = some hs ∧ hs.IsDir = false) ∧
      (e = none ∨ e = some ⟨"mkdir".toList, "a/b".toList, Sentinel.ErrFileExists⟩) :=
  Mkdir_error_iff_file_in_chain jsonUnmarshal ⟨[("a".toList, "x".toList)]⟩ "a/b".toList 0 2
    (by decide) 3 (by decide)

/-! ## The claims on `fileKey` -/

/-- Two path strings have the same key exactly when they have the same
`path.Dir` and the same `path.Base`. -/
theorem fileKey_eq_iff (p q : GoString) :
    fileKey p = fileKey q ↔ Dir p = Dir q ∧ Base p = Base q := by
  constructor
  · exact fileKey_inj_pair p q
  · rintro ⟨h1, h2⟩
    unfold fileKey
    rw [h1, h2]

/-- C3, as stated, fails: `"a/b/"` and `"a/b"` normalise to the same path, and
so do `"a/b/.."` and `"a"`, yet their keys differ. -/
theorem fileKey_differs_on_same_clean :
    (Clean "a/b/".toList = Clean "a/b".toList ∧
      fileKey "a/b/".toList ≠ fileKey "a/b".toList) ∧
    (Clean "a/b/..".toList = Clean "a".toList ∧
      fileKey "a/b/..".toList ≠ fileKey "a".toList) := by
  decide

/-- C3, amended: two path strings that normalise to the same path and whose
last element, the part after the last slash, is an ordinary name (not empty,
not `"."`, not `".."`) have the same key. -/
theorem fileKey_eq_of_Clean_eq (p q : GoString)
    (hp : (Split p).2 ≠ [] ∧ (Split p).2 ≠ ['.'] ∧ (Split p).2 ≠ ['.', '.'])
    (hq : (Split q).2 ≠ [] ∧ (Split q).2 ≠ ['.'] ∧ (Split q).2 ≠ ['.', '.'])
    (h : Clean p = Clean q) : fileKey p = fileKey q := by
  rw [← fileKey_Clean p hp, ← fileKey_Clean q hq, h]

theorem fileKey_eq_of_Clean_eq_witness :
    fileKey "a//b".toList = fileKey "x/.././a/b".toList :=
  fileKey_eq_of_Clean_eq "a//b".toList "x/.././a/b".toList (by decide) (by decide) (by decide)

/-- C9: `fileKey` is injective on normalised paths: two different path strings
that are both fixed by `path.Clean` have different keys. -/
theorem fileKey_injective_on_clean (p q : GoString) (hp : p = Clean p) (hq : q = Clean q)
    (hne : p ≠ q) : fileKey p ≠ fileKey q := by
  intro h
  obtain ⟨hD, hB⟩ := fileKey_inj_pair p q h
  apply hne
  rw [← joinPath_Dir_Base p hp.symm, ← joinPath_Dir_Base q hq.symm, hD, hB]

theorem fileKey_injective_on_clean_witness :
    fileKey "/a".toList ≠ fileKey "a".toList :=
  fileKey_injective_on_clean "/a".toList "a".toList (by decide) (by decide) (by decide)

end HashFS
